import Mathlib

/-!
# Verification of the AssetIO image-composition pipeline

Shallow embedding of the AssetIO TypeScript sources (operation dispatcher,
placement resolver, region-blur point ordering, shape canvas metrics, text
ellipsis, and the mask engine) together with theorems settling the frozen
claims about them.

JavaScript numbers are modelled exactly: a `JsNum` is either NaN, one of the
two infinities, or a rational.  Arithmetic on rationals is exact (no float64
rounding), which is the standard idealisation for a shallow embedding; every
claim below is about the structure of the computations, not about float
rounding noise.
-/

namespace AssetIO

/-- Model of a JavaScript `number`: NaN, the two infinities, or a finite
value (modelled as an exact rational). -/
inductive JsNum where
  | nan
  | posInf
  | negInf
  | fin (q : ℚ)
deriving DecidableEq, Repr

/-- `Number.isFinite`. -/
def JsNum.isFinite : JsNum → Bool
  | .fin _ => true
  | _ => false

/-- JavaScript `Math.round` on a finite value: half-up, i.e. `⌊q + 1/2⌋`. -/
def jsRound (q : ℚ) : ℤ := ⌊q + 1 / 2⌋

/-- JavaScript `+` on numbers. -/
def JsNum.add : JsNum → JsNum → JsNum
  | .nan, _ => .nan
  | _, .nan => .nan
  | .posInf, .negInf => .nan
  | .negInf, .posInf => .nan
  | .posInf, _ => .posInf
  | _, .posInf => .posInf
  | .negInf, _ => .negInf
  | _, .negInf => .negInf
  | .fin a, .fin b => .fin (a + b)

/-- JavaScript unary `-` on numbers. -/
def JsNum.neg : JsNum → JsNum
  | .nan => .nan
  | .posInf => .negInf
  | .negInf => .posInf
  | .fin a => .fin (-a)

/-- JavaScript binary `-` on numbers. -/
def JsNum.sub (a b : JsNum) : JsNum := a.add b.neg

/-- JavaScript `*` on numbers. -/
def JsNum.mul : JsNum → JsNum → JsNum
  | .nan, _ => .nan
  | _, .nan => .nan
  | .posInf, .posInf => .posInf
  | .posInf, .negInf => .negInf
  | .negInf, .posInf => .negInf
  | .negInf, .negInf => .posInf
  | .posInf, .fin b => if b = 0 then .nan else if 0 < b then .posInf else .negInf
  | .fin a, .posInf => if a = 0 then .nan else if 0 < a then .posInf else .negInf
  | .negInf, .fin b => if b = 0 then .nan else if 0 < b then .negInf else .posInf
  | .fin a, .negInf => if a = 0 then .nan else if 0 < a then .negInf else .posInf
  | .fin a, .fin b => .fin (a * b)

/-- JavaScript `/` on numbers. -/
def JsNum.div : JsNum → JsNum → JsNum
  | .nan, _ => .nan
  | _, .nan => .nan
  | .posInf, .posInf => .nan
  | .posInf, .negInf => .nan
  | .negInf, .posInf => .nan
  | .negInf, .negInf => .nan
  | .posInf, .fin b => if 0 ≤ b then .posInf else .negInf
  | .negInf, .fin b => if 0 ≤ b then .negInf else .posInf
  | .fin _, .posInf => .fin 0
  | .fin _, .negInf => .fin 0
  | .fin a, .fin b =>
      if b = 0 then (if a = 0 then .nan else if 0 < a then .posInf else .negInf)
      else .fin (a / b)

/-- JavaScript `<` on numbers (`false` whenever an operand is NaN). -/
def JsNum.lt : JsNum → JsNum → Bool
  | .nan, _ => false
  | _, .nan => false
  | .negInf, .negInf => false
  | .negInf, _ => true
  | _, .negInf => false
  | .posInf, _ => false
  | .fin _, .posInf => true
  | .fin a, .fin b => a < b

/-- JavaScript `===` on numbers (`false` whenever an operand is NaN). -/
def JsNum.strictEq : JsNum → JsNum → Bool
  | .nan, _ => false
  | _, .nan => false
  | .posInf, .posInf => true
  | .negInf, .negInf => true
  | .fin a, .fin b => a = b
  | _, _ => false

/-- Whitespace as skipped by `Number.parseFloat`. -/
def jsIsWhitespace (c : Char) : Bool := c.isWhitespace

/-- Reads a maximal run of decimal digits: accumulated value, number of
digits read, and the remaining characters. -/
def parseDigits : List Char → ℕ → ℕ → ℕ × ℕ × List Char
  | [], acc, n => (acc, n, [])
  | c :: cs, acc, n =>
      if c.isDigit then parseDigits cs (acc * 10 + (c.toNat - 48)) (n + 1)
      else (acc, n, c :: cs)

/-- Syntactic result of `Number.parseFloat`: NaN, a signed infinity, or a
signed decimal `mant / 10^scale * 10^exp` kept in integer form. -/
inductive FloatParse where
  | nan
  | inf (neg : Bool)
  | fin (neg : Bool) (mant : ℕ) (scale : ℕ) (exp : ℤ)
deriving DecidableEq, Repr

/-- Optional exponent part of a decimal literal (`e`/`E`, optional sign,
digits); an exponent marker not followed by a digit is not part of the
longest valid prefix and contributes exponent `0`, as in
`Number.parseFloat`. -/
def parseExponent : List Char → ℤ
  | 'e' :: rest => parseExponentTail rest
  | 'E' :: rest => parseExponentTail rest
  | _ => 0
where
  parseExponentTail (cs : List Char) : ℤ :=
    let signAndRest : ℤ × List Char :=
      match cs with
      | '+' :: r => (1, r)
      | '-' :: r => (-1, r)
      | r => (1, r)
    let parsed := parseDigits signAndRest.2 0 0
    if parsed.2.1 = 0 then 0
    else signAndRest.1 * parsed.1

/-- Body of `Number.parseFloat` after the optional sign: `Infinity`, or a
decimal literal `digits [. digits] [exponent]`; NaN when no digit is
present. -/
def parseFloatCore (cs : List Char) (neg : Bool) : FloatParse :=
  if ("Infinity".toList).isPrefixOf cs then .inf neg
  else
    let intPart := parseDigits cs 0 0
    match intPart.2.2 with
    | '.' :: rest2 =>
        let fracPart := parseDigits rest2 0 0
        if intPart.2.1 = 0 ∧ fracPart.2.1 = 0 then .nan
        else
          .fin neg (intPart.1 * 10 ^ fracPart.2.1 + fracPart.1) fracPart.2.1
            (parseExponent fracPart.2.2)
    | rest1 =>
        if intPart.2.1 = 0 then .nan
        else .fin neg intPart.1 0 (parseExponent rest1)

/-- Numeric value of a parse result (exact rational; real float64
quantisation is not modelled). -/
def FloatParse.value : FloatParse → JsNum
  | .nan => .nan
  | .inf false => .posInf
  | .inf true => .negInf
  | .fin neg mant scale exp =>
      .fin ((if neg then -1 else 1) * (mant : ℚ) / (10 : ℚ) ^ scale *
        (10 : ℚ) ^ exp)

/-- Syntactic stage of `Number.parseFloat`: skip leading whitespace,
optional sign, then the longest prefix that is a valid decimal literal. -/
def parseFloatSyntax (s : String) : FloatParse :=
  match s.toList.dropWhile jsIsWhitespace with
  | '+' :: r => parseFloatCore r false
  | '-' :: r => parseFloatCore r true
  | r => parseFloatCore r false

/-- `Number.parseFloat`. -/
def parseFloat (s : String) : JsNum :=
  (parseFloatSyntax s).value

/-- JavaScript `String.prototype.trim`: strip whitespace from both ends. -/
def jsTrim (s : String) : String :=
  ⟨((s.toList.dropWhile jsIsWhitespace).reverse.dropWhile jsIsWhitespace).reverse⟩

/-- JavaScript `String.prototype.endsWith`. -/
def jsEndsWith (s suffix : String) : Bool :=
  suffix.toList.isSuffixOf s.toList

/-- JavaScript `String.prototype.slice(0, -1)`: drop the last UTF-16 unit
(all characters appearing here are single units). -/
def jsDropLast (s : String) : String :=
  ⟨s.toList.dropLast⟩

/-! ## Placement resolver (`src/asset/renderer/placement.ts`) -/

/-- A placement value: an absolute number or a (percentage) string. -/
inductive PlacementValue where
  | num (n : JsNum)
  | str (s : String)
deriving DecidableEq, Repr

/-- Error message of `toRounded`. -/
def placementFiniteError : String := "Placement value must be finite."

/-- Error message of the dimension guard in `resolvePlacementValue`. -/
def placementDimensionError : String :=
  "Placement dimension must be a non-negative finite number."

/-- Error message for a relative placement string with no `%` suffix. -/
def placementPercentSuffixError (value : String) : String :=
  "Relative placement \"" ++ value ++ "\" must end with \"%\"."

/-- Error message for a relative placement string whose leading float is not
finite. -/
def placementFinitePercentageError (value : String) : String :=
  "Relative placement \"" ++ value ++ "\" must contain a finite percentage."

/-- `toRounded` from `placement.ts`: throws unless the value is finite, then
`Math.round`s it. -/
def toRounded (value : JsNum) : Except String ℤ :=
  match value with
  | .fin q => .ok (jsRound q)
  | _ => .error placementFiniteError

/-- `resolvePlacementValue` from `placement.ts`. -/
def resolvePlacementValue (value : PlacementValue) (dimension : JsNum) :
    Except String ℤ :=
  if ¬dimension.isFinite ∨ dimension.lt (.fin 0) then
    .error placementDimensionError
  else
    match value with
    | .num n => toRounded n
    | .str s =>
        let normalized := jsTrim s
        if ¬jsEndsWith normalized "%" then
          .error (placementPercentSuffixError s)
        else
          let percentage := parseFloat (jsDropLast normalized)
          if ¬percentage.isFinite then
            .error (placementFinitePercentageError s)
          else
            toRounded ((percentage.div (.fin 100)).mul dimension)

/-- `toAnchorOffset` from `placement.ts`: the nine fixed fractional anchor
offsets (with the source's default case). -/
def toAnchorOffset (anchor : String) : ℚ × ℚ :=
  if anchor = "top-left" then (0, 0)
  else if anchor = "top-center" then (-(1 / 2), 0)
  else if anchor = "top-right" then (-1, 0)
  else if anchor = "center-left" then (0, -(1 / 2))
  else if anchor = "center" then (-(1 / 2), -(1 / 2))
  else if anchor = "center-right" then (-1, -(1 / 2))
  else if anchor = "bottom-left" then (0, -1)
  else if anchor = "bottom-center" then (-(1 / 2), -1)
  else if anchor = "bottom-right" then (-1, -1)
  else (0, 0)

/-- `toCompositeOffset` from `placement.ts` (the `left` component is
evaluated first, so its error wins, as in the source's object literal). -/
def toCompositeOffset (anchor : String) (contentW contentH x y : JsNum) :
    Except String (ℤ × ℤ) :=
  let offset := toAnchorOffset anchor
  match toRounded (x.add (contentW.mul (.fin offset.1))) with
  | .error e => .error e
  | .ok left =>
      match toRounded (y.add (contentH.mul (.fin offset.2))) with
      | .error e => .error e
      | .ok top => .ok (left, top)

end AssetIO

namespace AssetIO

/-! ## Claims C5 and C6: placement resolver -/

theorem jsRound_add_int (q : ℚ) (n : ℤ) : jsRound (q + n) = jsRound q + n := by
  unfold jsRound
  rw [show q + (n : ℚ) + 1 / 2 = q + 1 / 2 + (n : ℚ) by ring, Int.floor_add_int]

/-- C5: for every valid percentage string `"p%"` (finite leading float `p`)
and non-negative finite dimension `d`, `resolvePlacementValue` returns
`round(p/100*d)`; for a finite numeric value `v` it returns `round(v)`; a
string whose trimmed form does not end in `"%"` raises the percent-suffix
parse error, and one whose leading float is not finite raises the
finite-percentage parse error. -/
theorem resolvePlacementValue_spec (s : String) (p d v : ℚ) :
    (jsEndsWith (jsTrim s) "%" = true →
      parseFloat (jsDropLast (jsTrim s)) = .fin p → 0 ≤ d →
      resolvePlacementValue (.str s) (.fin d) = .ok (jsRound (p / 100 * d)))
    ∧ (0 ≤ d →
      resolvePlacementValue (.num (.fin v)) (.fin d) = .ok (jsRound v))
    ∧ (jsEndsWith (jsTrim s) "%" = false → 0 ≤ d →
      resolvePlacementValue (.str s) (.fin d) =
        .error (placementPercentSuffixError s))
    ∧ (jsEndsWith (jsTrim s) "%" = true →
      (parseFloat (jsDropLast (jsTrim s))).isFinite = false → 0 ≤ d →
      resolvePlacementValue (.str s) (.fin d) =
        .error (placementFinitePercentageError s)) := by
  have h1 : (JsNum.fin d).isFinite = true := rfl
  have h2 : ∀ (hd : 0 ≤ d), (JsNum.fin d).lt (.fin 0) = false := by
    intro hd
    simp only [JsNum.lt, decide_eq_false_iff_not, not_lt]
    exact hd
  refine ⟨?_, ?_, ?_, ?_⟩
  · intro hpct hparse hd
    simp [resolvePlacementValue, h1, h2 hd, hpct, hparse, JsNum.isFinite,
      JsNum.div, JsNum.mul, toRounded]
  · intro hd
    simp [resolvePlacementValue, h1, h2 hd, toRounded]
  · intro hpct hd
    simp [resolvePlacementValue, h1, h2 hd, hpct]
  · intro hpct hnf hd
    simp [resolvePlacementValue, h1, h2 hd, hpct, hnf]

theorem resolvePlacementValue_spec_witness :
    resolvePlacementValue (.str "50%") (.fin 200) = .ok (jsRound (50 / 100 * 200))
    ∧ resolvePlacementValue (.num (.fin (5 / 2))) (.fin 200) = .ok (jsRound (5 / 2))
    ∧ resolvePlacementValue (.str "50px") (.fin 200) =
        .error (placementPercentSuffixError "50px")
    ∧ resolvePlacementValue (.str "Infinity%") (.fin 200) =
        .error (placementFinitePercentageError "Infinity%") :=
  ⟨(resolvePlacementValue_spec "50%" 50 200 (5 / 2)).1 (by decide)
      (by
        have h : parseFloatSyntax (jsDropLast (jsTrim "50%")) =
            .fin false 50 0 0 := by decide
        rw [parseFloat, h]
        norm_num [FloatParse.value])
      (by norm_num),
   (resolvePlacementValue_spec "50%" 50 200 (5 / 2)).2.1 (by norm_num),
   (resolvePlacementValue_spec "50px" 50 200 (5 / 2)).2.2.1 (by decide)
      (by norm_num),
   (resolvePlacementValue_spec "Infinity%" 50 200 (5 / 2)).2.2.2 (by decide)
      (by
        have h : parseFloatSyntax (jsDropLast (jsTrim "Infinity%")) =
            .inf false := by decide
        rw [parseFloat, h]
        rfl)
      (by norm_num)⟩

/-- C6: for every anchor (in particular the nine named ones), finite content
size and coordinates, `toCompositeOffset` returns
`(round(x + contentW*fx), round(y + contentH*fy))` for the anchor's fixed
fractional offsets, and shifting `(x, y)` by an integer pair `(dx, dy)`
shifts the returned `(left, top)` by exactly `(dx, dy)`. -/
theorem toCompositeOffset_translation_equivariant (anchor : String)
    (w h x y : ℚ) (dx dy : ℤ) :
    toCompositeOffset anchor (.fin w) (.fin h) (.fin x) (.fin y) =
      .ok (jsRound (x + w * (toAnchorOffset anchor).1),
           jsRound (y + h * (toAnchorOffset anchor).2))
    ∧ toCompositeOffset anchor (.fin w) (.fin h) (.fin (x + dx)) (.fin (y + dy)) =
      .ok (jsRound (x + w * (toAnchorOffset anchor).1) + dx,
           jsRound (y + h * (toAnchorOffset anchor).2) + dy) := by
  have key : ∀ (a b u v : ℚ),
      toCompositeOffset anchor (.fin w) (.fin h) (.fin a) (.fin b) =
        .ok (jsRound (a + w * (toAnchorOffset anchor).1),
             jsRound (b + h * (toAnchorOffset anchor).2)) := by
    intro a b _ _
    simp [toCompositeOffset, JsNum.add, JsNum.mul, toRounded]
  refine ⟨key x y 0 0, ?_⟩
  rw [key (x + dx) (y + dy) 0 0,
      show x + (dx : ℚ) + w * (toAnchorOffset anchor).1 =
        x + w * (toAnchorOffset anchor).1 + (dx : ℚ) by ring,
      show y + (dy : ℚ) + h * (toAnchorOffset anchor).2 =
        y + h * (toAnchorOffset anchor).2 + (dy : ℚ) by ring,
      jsRound_add_int, jsRound_add_int]

end AssetIO

namespace AssetIO

/-! ## Operation dispatcher (`src/asset/renderer/index.ts`,
`sharp-processor.ts`, `magick-processor.ts`) -/

/-- One recorded pipeline operation, as seen by the dispatcher: its tag, the
`options.type` field of a threshold operation (the only option the support
checks read), and an opaque stand-in for the rest of the variant's parameter
record. -/
structure AssetOperation where
  type : String
  thresholdType : Option String := none
  payload : ℕ := 0
deriving DecidableEq, Repr

/-- `SHARP_SUPPORTED_OPERATION_TYPES` from `sharp-processor.ts`. -/
def SHARP_SUPPORTED_OPERATION_TYPES : List String :=
  ["blur", "crop", "resize", "rotate", "flip", "flop", "grayscale", "negate",
   "normalize", "sharpen", "unsharpMask", "medianFilter", "gamma",
   "threshold", "border", "convolve"]

/-- `MAGICK_SUPPORTED_OPERATION_TYPES` from `magick-processor.ts`. -/
def MAGICK_SUPPORTED_OPERATION_TYPES : List String :=
  ["blur", "roll", "distort", "equalize", "autoLevel", "autoGamma", "level",
   "linearStretch", "contrast", "posterize", "sepiaTone", "tint", "colorize",
   "threshold", "quantize", "segment", "adaptiveSharpen", "motionBlur",
   "rotationalBlur", "addNoise", "despeckle", "waveletDenoise", "charcoal",
   "sketch", "oilPaint", "emboss", "solarize", "spread", "implode", "swirl",
   "wave", "vignette", "shade", "raise", "polaroid", "fx", "morphology",
   "detectEdges", "frame"]

/-- `SubmoduleAssetRendererSharpProcessor.supportsOperation`: a threshold
operation is supported only when its `options.type` defaults to or equals
`"global"`; otherwise membership in the sharp tag set. -/
def sharpSupportsOperation (op : AssetOperation) : Bool :=
  if op.type = "threshold" then (op.thresholdType.getD "global") = "global"
  else SHARP_SUPPORTED_OPERATION_TYPES.contains op.type

/-- `SubmoduleAssetRendererMagickProcessor.supportsOperation`. -/
def magickSupportsOperation (op : AssetOperation) : Bool :=
  MAGICK_SUPPORTED_OPERATION_TYPES.contains op.type

/-- Error message thrown by `processOperations` when no backend supports an
operation. -/
def noRendererError (t : String) : String :=
  "No renderer registered for \"" ++ t ++ "\" operation."

/-- The external backends the dispatcher routes to, abstracted over the
buffer type: the overlay/group compositor, the sharp (raster) backend's
single-operation application, and the magick (batch) backend's whole-run
application. -/
structure RendererBackends (β : Type) where
  overlayApply : β → AssetOperation → β
  groupApply : β → AssetOperation → β
  sharpApply : β → AssetOperation → β
  magickApplyBatch : β → List AssetOperation → β

/-- Condition of the inner collection loop of
`AssetRendererService.processOperations` (minus the index bound): not
overlay, not group, not sharp-supported, magick-supported. -/
def magickRunGuard (op : AssetOperation) : Bool :=
  op.type ≠ "overlay" && op.type ≠ "group" && !sharpSupportsOperation op &&
    magickSupportsOperation op

/-- The inner `while` loop of `processOperations`: collect operations from
`index` while the guard holds. -/
def collectMagickRun (ops : List AssetOperation) (index : ℕ) :
    List AssetOperation :=
  if h : index < ops.length then
    if magickRunGuard ops[index] then
      ops[index] :: collectMagickRun ops (index + 1)
    else []
  else []
termination_by ops.length - index
decreasing_by omega

/-- The outer `while` loop of `AssetRendererService.processOperations`,
starting from position `index` with current buffer `buf`. -/
def processFrom {β : Type} (b : RendererBackends β) (ops : List AssetOperation)
    (buf : β) (index : ℕ) : Except String β :=
  if h : index < ops.length then
    let op := ops[index]
    if op.type = "overlay" then
      processFrom b ops (b.overlayApply buf op) (index + 1)
    else if op.type = "group" then
      processFrom b ops (b.groupApply buf op) (index + 1)
    else if sharpSupportsOperation op then
      processFrom b ops (b.sharpApply buf op) (index + 1)
    else if magickSupportsOperation op then
      let magickOperations := collectMagickRun ops index
      if hm : 0 < magickOperations.length then
        processFrom b ops (b.magickApplyBatch buf magickOperations)
          (index + magickOperations.length)
      else .error (noRendererError op.type)
    else .error (noRendererError op.type)
  else .ok buf
termination_by ops.length - index
decreasing_by
  · omega
  · omega
  · omega
  · exact Nat.sub_lt_sub_left h (Nat.lt_add_of_pos_right hm)

/-- `AssetRendererService.processOperations` on an already-decoded source
buffer (the `operations.length === 0` early return coincides with the loop
doing nothing). -/
def processOperations {β : Type} (b : RendererBackends β) (buf : β)
    (ops : List AssetOperation) : Except String β :=
  processFrom b ops buf 0

/-- Claim-shaped dispatcher: structural recursion over the operation list,
where the batch branch submits the triggering operation together with the
maximal guarded run of subsequent operations as one unit.  `processFrom` is
proved equal to this function. -/
def dispatchOrdered {β : Type} (b : RendererBackends β) (buf : β) :
    List AssetOperation → Except String β
  | [] => .ok buf
  | op :: rest =>
    if op.type = "overlay" then
      dispatchOrdered b (b.overlayApply buf op) rest
    else if op.type = "group" then
      dispatchOrdered b (b.groupApply buf op) rest
    else if sharpSupportsOperation op then
      dispatchOrdered b (b.sharpApply buf op) rest
    else if magickSupportsOperation op then
      dispatchOrdered b
        (b.magickApplyBatch buf (op :: rest.takeWhile magickRunGuard))
        (rest.dropWhile magickRunGuard)
    else .error (noRendererError op.type)
termination_by l => l.length
decreasing_by
  all_goals simp only [List.length_cons]
  · omega
  · omega
  · omega
  · exact Nat.lt_succ_of_le (List.Sublist.length_le (List.dropWhile_sublist _))

end AssetIO

namespace AssetIO

/-! ## Claims C1, C2, C9: dispatcher theorems -/

/-- Dropping while `p` holds is the same as dropping the length of the
maximal `p`-prefix. -/
theorem dropWhile_eq_drop_takeWhile (p : α → Bool) (l : List α) :
    l.dropWhile p = l.drop (l.takeWhile p).length := by
  induction l with
  | nil => rfl
  | cons a t ih =>
      by_cases h : p a
      · simp [List.dropWhile_cons, List.takeWhile_cons, h, ih]
      · simp [List.dropWhile_cons, List.takeWhile_cons, h]

/-- The inner collection loop collects exactly the maximal guarded prefix of
the remaining operations. -/
theorem collectMagickRun_eq (ops : List AssetOperation) (i : ℕ) :
    collectMagickRun ops i = (ops.drop i).takeWhile magickRunGuard := by
  have H : ∀ (n : ℕ) (i : ℕ), ops.length - i ≤ n →
      collectMagickRun ops i = (ops.drop i).takeWhile magickRunGuard := by
    intro n
    induction n with
    | zero =>
        intro i hle
        rw [collectMagickRun, dif_neg (by omega),
          List.drop_eq_nil_of_le (by omega)]
        rfl
    | succ n ih =>
        intro i hle
        rw [collectMagickRun]
        by_cases h : i < ops.length
        · rw [dif_pos h, List.drop_eq_getElem_cons h]
          by_cases hg : magickRunGuard ops[i]
          · rw [if_pos hg, ih (i + 1) (by omega), List.takeWhile_cons,
              if_pos hg]
          · rw [if_neg hg, List.takeWhile_cons, if_neg hg]
        · rw [dif_neg h, List.drop_eq_nil_of_le (by omega)]
          rfl
  exact H (ops.length - i) i le_rfl

/-- The source's index-based dispatcher loop, resumed at position `i`,
computes the claim-shaped structural dispatch of the remaining suffix. -/
theorem processFrom_eq_dispatchOrdered {β : Type} (b : RendererBackends β)
    (ops : List AssetOperation) (buf : β) (i : ℕ) :
    processFrom b ops buf i = dispatchOrdered b buf (ops.drop i) := by
  have H : ∀ (n : ℕ) (i : ℕ) (buf : β), ops.length - i ≤ n →
      processFrom b ops buf i = dispatchOrdered b buf (ops.drop i) := by
    intro n
    induction n with
    | zero =>
        intro i buf hle
        rw [processFrom, dif_neg (by omega), List.drop_eq_nil_of_le (by omega),
          dispatchOrdered]
    | succ n ih =>
        intro i buf hle
        by_cases h : i < ops.length
        · rw [processFrom, dif_pos h, List.drop_eq_getElem_cons h,
            dispatchOrdered]
          by_cases h1 : ops[i].type = "overlay"
          · rw [if_pos h1, if_pos h1, ih (i + 1) _ (by omega)]
          · rw [if_neg h1, if_neg h1]
            by_cases h2 : ops[i].type = "group"
            · rw [if_pos h2, if_pos h2, ih (i + 1) _ (by omega)]
            · rw [if_neg h2, if_neg h2]
              by_cases h3 : sharpSupportsOperation ops[i]
              · rw [if_pos h3, if_pos h3, ih (i + 1) _ (by omega)]
              · rw [if_neg h3, if_neg h3]
                by_cases h4 : magickSupportsOperation ops[i]
                · rw [if_pos h4, if_pos h4]
                  have hg : magickRunGuard ops[i] = true := by
                    simp [magickRunGuard, h1, h2, h3, h4]
                  have hrun : collectMagickRun ops i =
                      ops[i] :: (ops.drop (i + 1)).takeWhile magickRunGuard := by
                    rw [collectMagickRun_eq, List.drop_eq_getElem_cons h,
                      List.takeWhile_cons, if_pos hg]
                  rw [hrun]
                  have hlen : 0 < (ops[i] ::
                      (ops.drop (i + 1)).takeWhile magickRunGuard).length := by
                    simp
                  rw [dif_pos hlen]
                  rw [ih (i + (ops[i] ::
                      (ops.drop (i + 1)).takeWhile magickRunGuard).length) _
                    (by simp only [List.length_cons]; omega)]
                  have hdrop : ops.drop (i + (ops[i] ::
                      (ops.drop (i + 1)).takeWhile magickRunGuard).length) =
                      (ops.drop (i + 1)).dropWhile magickRunGuard := by
                    rw [dropWhile_eq_drop_takeWhile, List.drop_drop]
                    congr 1
                    simp only [List.length_cons]
                    omega
                  rw [hdrop]
                · rw [if_neg h4, if_neg h4]
        · rw [processFrom, dif_neg h, List.drop_eq_nil_of_le (by omega),
            dispatchOrdered]
  exact H (ops.length - i) i buf le_rfl

/-- C1: for every source buffer and operation sequence, the dispatcher
processes operations strictly in list order: overlay/group operations go to
the compositor and advance one position, raster-supported operations are
applied by the sharp backend and advance one, and otherwise a
batch-supported operation triggers the submission of the maximal consecutive
run of batch-supported, non-overlay/group, non-raster-supported operations
as a single magick call, each step feeding its output to the next
(`dispatchOrdered` is that step-by-step description). -/
theorem processOperations_in_order {β : Type} (b : RendererBackends β)
    (buf : β) (ops : List AssetOperation) :
    processOperations b buf ops = dispatchOrdered b buf ops := by
  have h := processFrom_eq_dispatchOrdered b ops buf 0
  rwa [List.drop_zero] at h

end AssetIO

namespace AssetIO

/-- An operation the dispatcher has no backend for: not overlay/group and
supported by neither the sharp nor the magick processor. -/
def unsupportedOperation (op : AssetOperation) : Bool :=
  op.type ≠ "overlay" && op.type ≠ "group" && !sharpSupportsOperation op &&
    !magickSupportsOperation op

theorem dispatchOrdered_error_sound {β : Type} (b : RendererBackends β) :
    ∀ (n : ℕ) (ops : List AssetOperation) (buf : β) (e : String),
      ops.length ≤ n → dispatchOrdered b buf ops = .error e →
      ∃ op ∈ ops, unsupportedOperation op = true ∧
        e = noRendererError op.type := by
  intro n
  induction n with
  | zero =>
      intro ops buf e hle herr
      have hnil : ops = [] := List.eq_nil_of_length_eq_zero (Nat.le_zero.mp hle)
      subst hnil
      rw [dispatchOrdered] at herr
      cases herr
  | succ n ih =>
      intro ops buf e hle herr
      cases ops with
      | nil =>
          rw [dispatchOrdered] at herr
          cases herr
      | cons op rest =>
          have hrest : rest.length ≤ n := by
            simp only [List.length_cons] at hle
            omega
          rw [dispatchOrdered] at herr
          by_cases h1 : op.type = "overlay"
          · rw [if_pos h1] at herr
            obtain ⟨op', hmem, hop⟩ := ih rest _ e hrest herr
            exact ⟨op', List.mem_cons_of_mem _ hmem, hop⟩
          · rw [if_neg h1] at herr
            by_cases h2 : op.type = "group"
            · rw [if_pos h2] at herr
              obtain ⟨op', hmem, hop⟩ := ih rest _ e hrest herr
              exact ⟨op', List.mem_cons_of_mem _ hmem, hop⟩
            · rw [if_neg h2] at herr
              by_cases h3 : sharpSupportsOperation op
              · rw [if_pos h3] at herr
                obtain ⟨op', hmem, hop⟩ := ih rest _ e hrest herr
                exact ⟨op', List.mem_cons_of_mem _ hmem, hop⟩
              · rw [if_neg h3] at herr
                by_cases h4 : magickSupportsOperation op
                · rw [if_pos h4] at herr
                  obtain ⟨op', hmem, hop⟩ := ih (rest.dropWhile magickRunGuard)
                    _ e (le_trans (List.Sublist.length_le
                      (List.dropWhile_sublist _)) hrest) herr
                  exact ⟨op', List.mem_cons_of_mem _
                    ((List.dropWhile_sublist _).subset hmem), hop⟩
                · rw [if_neg h4] at herr
                  refine ⟨op, List.mem_cons_self op rest, ?_, ?_⟩
                  · simp only [Bool.not_eq_true] at h3 h4
                    simp [unsupportedOperation, h1, h2, h3, h4]
                  · cases herr
                    rfl

theorem dispatchOrdered_error_complete {β : Type} (b : RendererBackends β) :
    ∀ (n : ℕ) (ops : List AssetOperation) (buf : β),
      ops.length ≤ n → (∃ op ∈ ops, unsupportedOperation op = true) →
      ∃ e, dispatchOrdered b buf ops = .error e := by
  intro n
  induction n with
  | zero =>
      intro ops buf hle hex
      have hnil : ops = [] := List.eq_nil_of_length_eq_zero (Nat.le_zero.mp hle)
      subst hnil
      obtain ⟨op, hmem, _⟩ := hex
      cases hmem
  | succ n ih =>
      intro ops buf hle hex
      cases ops with
      | nil =>
          obtain ⟨op, hmem, _⟩ := hex
          cases hmem
      | cons op rest =>
          have hrest : rest.length ≤ n := by
            simp only [List.length_cons] at hle
            omega
          obtain ⟨u, hu, hun⟩ := hex
          rw [dispatchOrdered]
          by_cases h1 : op.type = "overlay"
          · rw [if_pos h1]
            refine ih rest _ hrest ⟨u, ?_, hun⟩
            cases List.mem_cons.mp hu with
            | inl heq =>
                subst heq
                simp [unsupportedOperation, h1] at hun
            | inr hmem => exact hmem
          · rw [if_neg h1]
            by_cases h2 : op.type = "group"
            · rw [if_pos h2]
              refine ih rest _ hrest ⟨u, ?_, hun⟩
              cases List.mem_cons.mp hu with
              | inl heq =>
                  subst heq
                  simp [unsupportedOperation, h2] at hun
              | inr hmem => exact hmem
            · rw [if_neg h2]
              by_cases h3 : sharpSupportsOperation op
              · rw [if_pos h3]
                refine ih rest _ hrest ⟨u, ?_, hun⟩
                cases List.mem_cons.mp hu with
                | inl heq =>
                    subst heq
                    simp [unsupportedOperation, h3] at hun
                | inr hmem => exact hmem
              · rw [if_neg h3]
                by_cases h4 : magickSupportsOperation op
                · rw [if_pos h4]
                  refine ih (rest.dropWhile magickRunGuard) _
                    (le_trans (List.Sublist.length_le
                      (List.dropWhile_sublist _)) hrest) ⟨u, ?_, hun⟩
                  have humem : u ∈ rest := by
                    cases List.mem_cons.mp hu with
                    | inl heq =>
                        subst heq
                        simp [unsupportedOperation, h4] at hun
                    | inr hmem => exact hmem
                  have hsplit := List.takeWhile_append_dropWhile
                    (p := magickRunGuard) (l := rest)
                  rw [← hsplit] at humem
                  cases List.mem_append.mp humem with
                  | inl htake =>
                      have hguard := List.mem_takeWhile_imp htake
                      simp only [magickRunGuard, Bool.and_eq_true] at hguard
                      simp [unsupportedOperation, hguard.2] at hun
                  | inr hdrop => exact hdrop
                · rw [if_neg h4]
                  exact ⟨noRendererError op.type, rfl⟩

/-- C2: `processOperations` returns a capability error if and only if the
sequence contains an operation that is not overlay/group and is supported by
neither the raster (sharp) backend nor the batch (magick) backend, and every
such error names an unsupported operation's type; an unsupported operation
is never silently skipped. -/
theorem processOperations_capability_error {β : Type} (b : RendererBackends β)
    (buf : β) (ops : List AssetOperation) :
    ((∃ e, processOperations b buf ops = .error e) ↔
      ∃ op ∈ ops, unsupportedOperation op = true)
    ∧ (∀ e, processOperations b buf ops = .error e →
      ∃ op ∈ ops, unsupportedOperation op = true ∧
        e = noRendererError op.type) := by
  have heq : processOperations b buf ops = dispatchOrdered b buf ops := by
    have h := processFrom_eq_dispatchOrdered b ops buf 0
    rwa [List.drop_zero] at h
  constructor
  · constructor
    · rintro ⟨e, he⟩
      rw [heq] at he
      obtain ⟨op, hmem, hop, _⟩ :=
        dispatchOrdered_error_sound b ops.length ops buf e le_rfl he
      exact ⟨op, hmem, hop⟩
    · intro hex
      rw [heq]
      exact dispatchOrdered_error_complete b ops.length ops buf le_rfl hex
  · intro e he
    rw [heq] at he
    exact dispatchOrdered_error_sound b ops.length ops buf e le_rfl he

/-- Concrete backends over natural-number "buffers", used to witness the
dispatcher theorems. -/
def demoBackends : RendererBackends ℕ where
  overlayApply := fun b _ => b + 1
  groupApply := fun b _ => b + 2
  sharpApply := fun b _ => b + 3
  magickApplyBatch := fun b ops => b + ops.length

theorem processOperations_capability_error_witness :
    ∃ e, processOperations demoBackends 0
      [⟨"mystery", none, 0⟩] = .error e :=
  (processOperations_capability_error demoBackends 0
      [⟨"mystery", none, 0⟩]).1.mpr
    ⟨⟨"mystery", none, 0⟩, by decide, by decide⟩

/-- C9: whenever the dispatcher reaches an operation that is not
overlay/group, not raster-supported, and batch-supported (exactly the state
in which the inner collection loop runs), the collected batch contains at
least that operation, so the nonempty-batch branch is taken and the loop
index strictly increases — hence the loop terminates on finite sequences. -/
theorem processFrom_batch_advances {β : Type} (b : RendererBackends β)
    (ops : List AssetOperation) (buf : β) (i : ℕ) (h : i < ops.length)
    (h1 : ops[i].type ≠ "overlay") (h2 : ops[i].type ≠ "group")
    (h3 : sharpSupportsOperation ops[i] = false)
    (h4 : magickSupportsOperation ops[i] = true) :
    1 ≤ (collectMagickRun ops i).length ∧
    i < i + (collectMagickRun ops i).length ∧
    processFrom b ops buf i =
      processFrom b ops (b.magickApplyBatch buf (collectMagickRun ops i))
        (i + (collectMagickRun ops i).length) := by
  have hg : magickRunGuard ops[i] = true := by
    simp [magickRunGuard, h1, h2, h3, h4]
  have hrun : collectMagickRun ops i =
      ops[i] :: (ops.drop (i + 1)).takeWhile magickRunGuard := by
    rw [collectMagickRun_eq, List.drop_eq_getElem_cons h,
      List.takeWhile_cons, if_pos hg]
  have hlen : 1 ≤ (collectMagickRun ops i).length := by
    rw [hrun]
    simp
  refine ⟨hlen, by omega, ?_⟩
  rw [processFrom_eq_dispatchOrdered, processFrom_eq_dispatchOrdered,
    List.drop_eq_getElem_cons h, dispatchOrdered, if_neg h1, if_neg h2,
    if_neg (by rw [h3]; exact Bool.false_ne_true), if_pos h4]
  have hdrop : ops.drop (i + (collectMagickRun ops i).length) =
      (ops.drop (i + 1)).dropWhile magickRunGuard := by
    rw [hrun, dropWhile_eq_drop_takeWhile, List.drop_drop]
    congr 1
    simp only [List.length_cons]
    omega
  rw [hdrop, hrun]

theorem processFrom_batch_advances_witness :
    1 ≤ (collectMagickRun [⟨"swirl", none, 0⟩] 0).length ∧
    0 < 0 + (collectMagickRun [⟨"swirl", none, 0⟩] 0).length ∧
    processFrom demoBackends [⟨"swirl", none, 0⟩] 0 0 =
      processFrom demoBackends [⟨"swirl", none, 0⟩]
        (demoBackends.magickApplyBatch 0
          (collectMagickRun [⟨"swirl", none, 0⟩] 0))
        (0 + (collectMagickRun [⟨"swirl", none, 0⟩] 0).length) :=
  processFrom_batch_advances demoBackends [⟨"swirl", none, 0⟩] 0 0
    (by decide) (by decide) (by decide) (by decide) (by decide)

end AssetIO

namespace AssetIO

/-! ## Shape canvas metrics (`src/render/shape.ts`) -/

/-- `MIN_SHAPE_SIZE` from `shape.ts`. -/
def MIN_SHAPE_SIZE : ℤ := 1

/-- `StrokeConfig` from `shapes/types.ts`, restricted to the fields the
canvas metrics read (`color`, `dash`, `cap`, `join` are opaque to sizing and
stand behind the `color` tag). -/
structure StrokeConfig where
  color : ℕ := 0
  width : ℚ
  position : Option String := none
deriving DecidableEq, Repr

/-- `EffectConfig` from `effects/types.ts`, with the numeric fields the
padding computation reads (colors/sources/opacities are opaque to sizing). -/
inductive EffectConfig where
  | dropShadow (offsetX offsetY blur : ℚ) (spread : Option ℚ)
  | innerShadow (offsetX offsetY blur : ℚ) (spread : Option ℚ)
  | layerBlur (radius : ℚ)
  | backgroundBlur (radius : ℚ)
  | noise
  | texture
  | glass (blur : ℚ)
deriving DecidableEq, Repr

/-- `toStrokePadding` from `shape.ts`: the stroke size (doubled when the
stroke position is `outside`), ceiled and clamped to be non-negative. -/
def toStrokePadding (stroke : Option StrokeConfig) : ℤ :=
  match stroke with
  | none => 0
  | some s =>
      let strokeSize := if s.position = some "outside" then s.width * 2
        else s.width
      max 0 ⌈strokeSize⌉

/-- The accumulation loop of `toEffectsPadding` from `shape.ts` (running
maximum over each effect's spatial bleed). -/
def toEffectsPaddingRaw : List EffectConfig → ℚ → ℚ
  | [], maxPadding => maxPadding
  | e :: rest, maxPadding =>
      toEffectsPaddingRaw rest
        (match e with
          | .dropShadow ox oy blur spread =>
              max maxPadding
                (max (|ox| + blur + |spread.getD 0|) (|oy| + blur + |spread.getD 0|))
          | .innerShadow ox oy blur spread =>
              max maxPadding
                (max (|ox| + blur + |spread.getD 0|) (|oy| + blur + |spread.getD 0|))
          | .layerBlur radius => max maxPadding (radius * 2)
          | .backgroundBlur radius => max maxPadding (radius * 2)
          | .glass blur => max maxPadding (blur * 2)
          | _ => maxPadding)

/-- `toEffectsPadding` from `shape.ts`. -/
def toEffectsPadding (effects : List EffectConfig) : ℤ :=
  ⌈toEffectsPaddingRaw effects 0⌉

/-- Tight path bounds as produced by the geometry engine (the skia path
itself is external; only its bounds enter the metrics). -/
structure PathBounds where
  left : ℚ
  top : ℚ
  right : ℚ
  bottom : ℚ
deriving DecidableEq, Repr

/-- The sizing fields of `ShapeMetrics` from `shape.ts`. -/
structure ShapeMetrics where
  padding : ℤ
  canvasWidth : ℤ
  canvasHeight : ℤ
  translateX : ℤ
  translateY : ℤ
deriving DecidableEq, Repr

/-- `buildMetrics` from `shape.ts`, parameterised by the shape's style state
and the normalized path bounds. -/
def buildMetrics (stroke : Option StrokeConfig) (effects : List EffectConfig)
    (bounds : PathBounds) : ShapeMetrics :=
  let padding := max 2 (max (toStrokePadding stroke) (toEffectsPadding effects))
  let width := max MIN_SHAPE_SIZE ⌈bounds.right - bounds.left⌉
  let height := max MIN_SHAPE_SIZE ⌈bounds.bottom - bounds.top⌉
  { padding := padding
    canvasWidth := width + padding * 2
    canvasHeight := height + padding * 2
    translateX := padding
    translateY := padding }

/-- The claim's (uncorrected) stroke padding: the plain stroke width,
doubled for `outside` position, with no ceiling or clamping. -/
def claimStrokePadding (stroke : Option StrokeConfig) : ℚ :=
  match stroke with
  | none => 0
  | some s => if s.position = some "outside" then s.width * 2 else s.width

/-- The claim's (uncorrected) padding formula
`max(2, strokePadding, effectsPadding)` with the plain stroke width. -/
def claimPadding (stroke : Option StrokeConfig)
    (effects : List EffectConfig) : ℚ :=
  max 2 (max (claimStrokePadding stroke) ((toEffectsPadding effects : ℚ)))

/-- C7 counterexample: for a stroke of width `5/2` positioned `inside` and no
effects, the code's padding is `⌈5/2⌉ = 3`, not the claim's plain stroke
width `5/2` — the code ceils (and clamps) the stroke size. -/
theorem buildMetrics_padding_claim_counterexample :
    ((buildMetrics (some ⟨0, 5 / 2, some "inside"⟩) [] ⟨0, 0, 10, 10⟩).padding : ℚ) ≠
      claimPadding (some ⟨0, 5 / 2, some "inside"⟩) [] := by
  have hc : ⌈(5 / 2 : ℚ)⌉ = 3 := by
    rw [Int.ceil_eq_iff]
    norm_num
  norm_num [buildMetrics, toStrokePadding, toEffectsPadding,
    toEffectsPaddingRaw, claimPadding, claimStrokePadding, hc, max_def,
    show ("inside" : String) ≠ "outside" from by decide]

/-- C7 (amended): the render-canvas padding equals
`max(2, strokePadding, effectsPadding)` where `strokePadding` is the ceiling
of the stroke width doubled for `outside` position and of the plain stroke
width otherwise, clamped to be non-negative; in particular `outside`/width 10
gives padding ≥ 20 and `inside`/width 10 gives ≥ 10; the final canvas is the
ceiled content bounding box plus twice the padding on each axis with the
content translated by `(padding, padding)`. -/
theorem buildMetrics_padding_spec (stroke : Option StrokeConfig)
    (effects : List EffectConfig) (bounds : PathBounds) (w : ℚ) (c : ℕ) :
    (buildMetrics stroke effects bounds).padding =
      max 2 (max (toStrokePadding stroke) (toEffectsPadding effects))
    ∧ toStrokePadding (some ⟨c, w, some "outside"⟩) = max 0 ⌈w * 2⌉
    ∧ toStrokePadding (some ⟨c, w, some "inside"⟩) = max 0 ⌈w⌉
    ∧ 20 ≤ (buildMetrics (some ⟨c, 10, some "outside"⟩) effects bounds).padding
    ∧ 10 ≤ (buildMetrics (some ⟨c, 10, some "inside"⟩) effects bounds).padding
    ∧ (buildMetrics stroke effects bounds).canvasWidth =
        max MIN_SHAPE_SIZE ⌈bounds.right - bounds.left⌉ +
          2 * (buildMetrics stroke effects bounds).padding
    ∧ (buildMetrics stroke effects bounds).canvasHeight =
        max MIN_SHAPE_SIZE ⌈bounds.bottom - bounds.top⌉ +
          2 * (buildMetrics stroke effects bounds).padding
    ∧ (buildMetrics stroke effects bounds).translateX =
        (buildMetrics stroke effects bounds).padding
    ∧ (buildMetrics stroke effects bounds).translateY =
        (buildMetrics stroke effects bounds).padding := by
  refine ⟨rfl, ?_, ?_, ?_, ?_, by simp [buildMetrics]; ring, by
    simp [buildMetrics]; ring, rfl, rfl⟩
  · simp [toStrokePadding]
  · simp [toStrokePadding, show ("inside" : String) ≠ "outside" from by decide]
  · have hsp : toStrokePadding (some ⟨c, 10, some "outside"⟩) = 20 := by
      norm_num [toStrokePadding]
    calc (20 : ℤ) = toStrokePadding (some ⟨c, 10, some "outside"⟩) := hsp.symm
      _ ≤ max (toStrokePadding (some ⟨c, 10, some "outside"⟩))
            (toEffectsPadding effects) := le_max_left _ _
      _ ≤ (buildMetrics (some ⟨c, 10, some "outside"⟩) effects bounds).padding :=
            le_max_right _ _
  · have hsp : toStrokePadding (some ⟨c, 10, some "inside"⟩) = 10 := by
      norm_num [toStrokePadding,
        show ("inside" : String) ≠ "outside" from by decide]
    calc (10 : ℤ) = toStrokePadding (some ⟨c, 10, some "inside"⟩) := hsp.symm
      _ ≤ max (toStrokePadding (some ⟨c, 10, some "inside"⟩))
            (toEffectsPadding effects) := le_max_left _ _
      _ ≤ (buildMetrics (some ⟨c, 10, some "inside"⟩) effects bounds).padding :=
            le_max_right _ _

end AssetIO

namespace AssetIO

/-! ## Text layout: ellipsis truncation (`src/render/shape.ts`, text part) -/

/-- `FontRef` (family/weight/italic only select the external font; `size`
drives the layout). -/
structure FontRef where
  family : String := "sans-serif"
  size : ℚ := 16
  weight : ℕ := 400
  italic : Bool := false
deriving DecidableEq, Repr

/-- `DEFAULT_FONT` from `shape.ts`. -/
def DEFAULT_FONT : FontRef := {}

/-- `DEFAULT_LINE_HEIGHT_MULTIPLIER` from `shape.ts`. -/
def DEFAULT_LINE_HEIGHT_MULTIPLIER : ℚ := 6 / 5

/-- `TextRunOptions`, restricted to the field the layout reads (`color` only
affects fill style). -/
structure TextRunOptions where
  font : Option FontRef := none
deriving DecidableEq, Repr

/-- `TextOptions`, restricted to the fields the ellipsis logic reads. -/
structure TextOptions where
  font : Option FontRef := none
  width : Option ℚ := none
  maxHeight : Option ℚ := none
  lineHeight : Option ℚ := none
  overflow : Option String := none
  letterSpacing : Option ℚ := none
deriving DecidableEq, Repr

/-- `toFontRef`: the options' font or the default font. -/
def toFontRef (font : Option FontRef) : FontRef := font.getD DEFAULT_FONT

/-- `getLineHeight` from `shape.ts`: absent ⇒ `fontSize * 1.2`; a value ≤ 3
is a unitless multiplier of the font size; otherwise absolute pixels. -/
def getLineHeight (options : Option TextOptions) : ℚ :=
  let font := toFontRef (options.bind TextOptions.font)
  match options.bind TextOptions.lineHeight with
  | none => font.size * DEFAULT_LINE_HEIGHT_MULTIPLIER
  | some lh => if lh ≤ 3 then font.size * lh else lh

/-- `Math.max(1, Math.floor(maxHeight / lineHeight))` under JavaScript
division: `none` encodes the `+Infinity` produced by `maxHeight / 0` with
positive `maxHeight` (no truncation ever applies). -/
def jsMaxLines (mh lh : ℚ) : Option ℤ :=
  if lh = 0 then (if 0 < mh then none else some 1)
  else some (max 1 ⌊mh / lh⌋)

/-- A measured run: segment text, its run options, measured width. -/
structure MeasuredRun where
  value : String
  options : Option TextRunOptions
  width : ℚ
deriving DecidableEq, Repr

/-- A measured line: runs plus accumulated width. -/
structure MeasuredLine where
  runs : List MeasuredRun
  width : ℚ
deriving DecidableEq, Repr

/-- Termination fuel of the shrink loop: each iteration pops a run or drops
one character of the last run, so runs-count plus character-count strictly
decreases. -/
def runsFuel (runs : List MeasuredRun) : ℕ :=
  (runs.map (fun r => r.value.length + 1)).sum

theorem runsFuel_append (a b : List MeasuredRun) :
    runsFuel (a ++ b) = runsFuel a + runsFuel b := by
  simp [runsFuel]

theorem runsFuel_eq_dropLast_add (runs : List MeasuredRun) (h : runs ≠ []) :
    runsFuel runs =
      runsFuel runs.dropLast + ((runs.getLast h).value.length + 1) := by
  conv_lhs => rw [← List.dropLast_append_getLast h]
  rw [runsFuel_append]
  simp [runsFuel]

theorem runsFuel_dropLast_lt (runs : List MeasuredRun) (h : runs ≠ []) :
    runsFuel runs.dropLast < runsFuel runs := by
  rw [runsFuel_eq_dropLast_add runs h]
  omega

theorem runsFuel_shorten_lt (runs : List MeasuredRun) (h : runs ≠ [])
    (r : MeasuredRun) (hlt : r.value.length < (runs.getLast h).value.length) :
    runsFuel (runs.dropLast ++ [r]) < runsFuel runs := by
  rw [runsFuel_append, runsFuel_eq_dropLast_add runs h]
  simp only [runsFuel, List.map_cons, List.map_nil, List.sum_cons,
    List.sum_nil]
  omega

theorem jsDropLast_length_lt (s : String) (h : 0 < s.length) :
    (jsDropLast s).length < s.length := by
  simp only [jsDropLast]
  rw [String.length_mk, List.length_dropLast]
  have hl : s.toList.length = s.length := rfl
  omega

/-- The `while` loop of `applyEllipsisIfNeeded`: while the last visible line
has runs and its width plus the ellipsis width overflows the box width, pop
a trailing run of at most one character, or drop the trailing run's last
character and re-measure it with its effective font. -/
def shrinkLastLine (measure : FontRef → String → ℚ)
    (options : Option TextOptions) (maxWidth : Option ℚ) (ellipsisWidth : ℚ)
    (line : MeasuredLine) : MeasuredLine :=
  match maxWidth with
  | none => line
  | some m =>
      if h : line.runs ≠ [] ∧ m < line.width + ellipsisWidth then
        let current := line.runs.getLast h.1
        if hv : current.value.length ≤ 1 then
          shrinkLastLine measure options maxWidth ellipsisWidth
            ⟨line.runs.dropLast, line.width - current.width⟩
        else
          let shortened := jsDropLast current.value
          let fontForRun : Option FontRef :=
            match current.options with
            | some runOptions => runOptions.font
            | none => options.bind TextOptions.font
          let width := measure (toFontRef fontForRun) shortened
          shrinkLastLine measure options maxWidth ellipsisWidth
            ⟨line.runs.dropLast ++ [⟨shortened, current.options, width⟩],
             line.width - current.width + width⟩
      else line
termination_by runsFuel line.runs
decreasing_by
  · exact runsFuel_dropLast_lt _ h.1
  · exact runsFuel_shorten_lt _ h.1 _
      (jsDropLast_length_lt current.value (by omega))

/-- The ellipsis glyphs appended by `applyEllipsisIfNeeded`. -/
def ELLIPSIS : String := "..."

/-- `applyEllipsisIfNeeded` from `shape.ts`: no/zero `maxHeight` is a no-op;
otherwise truncate to the number of lines that fit, and under the
`ellipsis` overflow policy shrink the last visible line until the ellipsis
fits (or the line is exhausted) and append the ellipsis run (whose options
carry the text-level options).  `measure` models the canvas
`measureText` under a given font and `ctxFont` the font left on the
measuring context when the ellipsis width is taken. -/
def applyEllipsisIfNeeded (measure : FontRef → String → ℚ) (ctxFont : FontRef)
    (lines : List MeasuredLine) (options : Option TextOptions) :
    List MeasuredLine :=
  match options with
  | none => lines
  | some opts =>
      match opts.maxHeight with
      | none => lines
      | some mh =>
          if mh = 0 then lines
          else
            match jsMaxLines mh (getLineHeight (some opts)) with
            | none => lines
            | some maxLines =>
                if (lines.length : ℤ) ≤ maxLines then lines
                else
                  let visible := lines.take maxLines.toNat
                  if opts.overflow ≠ some "ellipsis" then visible
                  else
                    match visible.getLast? with
                    | none => visible
                    | some last =>
                        let ellipsisWidth := measure ctxFont ELLIPSIS
                        let shrunk := shrinkLastLine measure (some opts)
                          opts.width ellipsisWidth last
                        visible.dropLast ++
                          [⟨shrunk.runs ++
                              [⟨ELLIPSIS, some ⟨opts.font⟩, ellipsisWidth⟩],
                            shrunk.width + ellipsisWidth⟩]

end AssetIO

namespace AssetIO

theorem runsFuel_pos (runs : List MeasuredRun) (h : runs ≠ []) :
    0 < runsFuel runs := by
  rw [runsFuel_eq_dropLast_add runs h]
  omega

theorem shrinkLastLine_post_some (measure : FontRef → String → ℚ)
    (options : Option TextOptions) (ew m : ℚ) :
    ∀ (n : ℕ) (line : MeasuredLine), runsFuel line.runs ≤ n →
      (shrinkLastLine measure options (some m) ew line).runs = [] ∨
      (shrinkLastLine measure options (some m) ew line).width + ew ≤ m := by
  intro n
  induction n using Nat.strong_induction_on with
  | _ n ih =>
      intro line hfuel
      rw [shrinkLastLine]
      by_cases h : line.runs ≠ [] ∧ m < line.width + ew
      · rw [dif_pos h]
        by_cases hv : (line.runs.getLast h.1).value.length ≤ 1
        · rw [dif_pos hv]
          exact ih (runsFuel line.runs.dropLast)
            (lt_of_lt_of_le (runsFuel_dropLast_lt _ h.1) hfuel) _ le_rfl
        · rw [dif_neg hv]
          refine ih (runsFuel (line.runs.dropLast ++
            [⟨jsDropLast (line.runs.getLast h.1).value,
              (line.runs.getLast h.1).options,
              measure (toFontRef (match (line.runs.getLast h.1).options with
                | some runOptions => runOptions.font
                | none => options.bind TextOptions.font))
                (jsDropLast (line.runs.getLast h.1).value)⟩]))
            (lt_of_lt_of_le (runsFuel_shorten_lt _ h.1 _
              (jsDropLast_length_lt _ (by omega))) hfuel) _ le_rfl
      · rw [dif_neg h]
        rcases not_and_or.mp h with hruns | hwidth
        · exact Or.inl (not_not.mp hruns)
        · exact Or.inr (not_lt.mp hwidth)

/-- After the shrink loop, either every run was consumed or the remaining
width plus the ellipsis width fits the box width (when one is set). -/
theorem shrinkLastLine_fits (measure : FontRef → String → ℚ)
    (options : Option TextOptions) (maxWidth : Option ℚ) (ew : ℚ)
    (line : MeasuredLine) :
    (shrinkLastLine measure options maxWidth ew line).runs = [] ∨
    ∀ m, maxWidth = some m →
      (shrinkLastLine measure options maxWidth ew line).width + ew ≤ m := by
  match maxWidth with
  | none => exact Or.inr (fun m hm => nomatch hm)
  | some m =>
      rcases shrinkLastLine_post_some measure options ew m
        (runsFuel line.runs) line le_rfl with h | h
      · exact Or.inl h
      · exact Or.inr (fun m' hm' => by cases hm'; exact h)

end AssetIO

namespace AssetIO

/-- C8: when the overflow policy is `ellipsis` and the measured line count
exceeds the number of lines that fit in `maxHeight`, the rendered lines are
the visible prefix with the last visible line replaced by its shrunk form
(trailing characters removed and exhausted runs dropped) with the ellipsis
run appended; the shrinking stops only once the line width plus the
ellipsis width fits the box width or every run is consumed — so even a box
narrower than the ellipsis plus one character still renders at least the
ellipsis. -/
theorem applyEllipsisIfNeeded_spec (measure : FontRef → String → ℚ)
    (ctxFont : FontRef) (lines : List MeasuredLine) (opts : TextOptions)
    (mh : ℚ) (maxLines : ℤ) (last : MeasuredLine)
    (hmh : opts.maxHeight = some mh) (hmh0 : ¬mh = 0)
    (hml : jsMaxLines mh (getLineHeight (some opts)) = some maxLines)
    (hcount : ¬(lines.length : ℤ) ≤ maxLines)
    (hov : opts.overflow = some "ellipsis")
    (hlast : (lines.take maxLines.toNat).getLast? = some last) :
    applyEllipsisIfNeeded measure ctxFont lines (some opts) =
      (lines.take maxLines.toNat).dropLast ++
        [⟨(shrinkLastLine measure (some opts) opts.width
              (measure ctxFont ELLIPSIS) last).runs ++
            [⟨ELLIPSIS, some ⟨opts.font⟩, measure ctxFont ELLIPSIS⟩],
          (shrinkLastLine measure (some opts) opts.width
              (measure ctxFont ELLIPSIS) last).width +
            measure ctxFont ELLIPSIS⟩]
    ∧ ((shrinkLastLine measure (some opts) opts.width
          (measure ctxFont ELLIPSIS) last).runs = [] ∨
        ∀ m, opts.width = some m →
          (shrinkLastLine measure (some opts) opts.width
              (measure ctxFont ELLIPSIS) last).width +
            measure ctxFont ELLIPSIS ≤ m) := by
  constructor
  · simp only [applyEllipsisIfNeeded, hmh, hml, if_neg hmh0,
      if_neg hcount, hov, hlast]
    simp
  · exact shrinkLastLine_fits measure (some opts) opts.width
      (measure ctxFont ELLIPSIS) last

end AssetIO

namespace AssetIO

/-- Character-count measurement used to witness the ellipsis theorem. -/
def lengthMeasure : FontRef → String → ℚ := fun _ s => (s.length : ℚ)

/-- A one-visible-line, two-pixel-wide box (narrower than the three-glyph
ellipsis) for the ellipsis witness. -/
def narrowBoxOptions : TextOptions :=
  { font := some ⟨"sans-serif", 10, 400, false⟩,
    width := some 2,
    maxHeight := some 10,
    lineHeight := some 1,
    overflow := some "ellipsis",
    letterSpacing := none }

/-- Two measured lines of two characters each for the ellipsis witness. -/
def narrowBoxLines : List MeasuredLine :=
  [⟨[⟨"ab", none, 2⟩], 2⟩, ⟨[⟨"cd", none, 2⟩], 2⟩]

theorem applyEllipsisIfNeeded_spec_witness :
    applyEllipsisIfNeeded lengthMeasure DEFAULT_FONT narrowBoxLines
        (some narrowBoxOptions) =
      (narrowBoxLines.take (1 : ℤ).toNat).dropLast ++
        [⟨(shrinkLastLine lengthMeasure (some narrowBoxOptions)
              narrowBoxOptions.width
              (lengthMeasure DEFAULT_FONT ELLIPSIS)
              ⟨[⟨"ab", none, 2⟩], 2⟩).runs ++
            [⟨ELLIPSIS, some ⟨narrowBoxOptions.font⟩,
              lengthMeasure DEFAULT_FONT ELLIPSIS⟩],
          (shrinkLastLine lengthMeasure (some narrowBoxOptions)
              narrowBoxOptions.width
              (lengthMeasure DEFAULT_FONT ELLIPSIS)
              ⟨[⟨"ab", none, 2⟩], 2⟩).width +
            lengthMeasure DEFAULT_FONT ELLIPSIS⟩]
    ∧ ((shrinkLastLine lengthMeasure (some narrowBoxOptions)
          narrowBoxOptions.width
          (lengthMeasure DEFAULT_FONT ELLIPSIS)
          ⟨[⟨"ab", none, 2⟩], 2⟩).runs = [] ∨
        ∀ m, narrowBoxOptions.width = some m →
          (shrinkLastLine lengthMeasure (some narrowBoxOptions)
              narrowBoxOptions.width
              (lengthMeasure DEFAULT_FONT ELLIPSIS)
              ⟨[⟨"ab", none, 2⟩], 2⟩).width +
            lengthMeasure DEFAULT_FONT ELLIPSIS ≤ m) :=
  applyEllipsisIfNeeded_spec lengthMeasure DEFAULT_FONT narrowBoxLines
    narrowBoxOptions 10 1 ⟨[⟨"ab", none, 2⟩], 2⟩ rfl (by norm_num)
    (by norm_num [jsMaxLines, getLineHeight, toFontRef, narrowBoxOptions,
      DEFAULT_LINE_HEIGHT_MULTIPLIER])
    (by norm_num [narrowBoxLines]) rfl rfl

end AssetIO

namespace AssetIO

/-! ## Mask engine (`src/asset/renderer/magick-processor.ts`, `applyMask`,
with the canvas/sharp pixel primitives modelled by their documented
contracts: RGBA pixels, `dest-in` multiplies destination alpha by source
alpha, resizing is nearest-neighbour sampling, `ensureAlpha` is the
identity on the always-RGBA model) -/

/-- An RGBA pixel (channels in `0..255`). -/
structure Pix where
  r : ℕ
  g : ℕ
  b : ℕ
  a : ℕ
deriving DecidableEq, Repr

/-- A decoded pixel buffer. -/
structure Img where
  w : ℕ
  h : ℕ
  px : ℕ → ℕ → Pix

/-- Rounded byte product `round(a*b/255)`, the alpha arithmetic of a
`dest-in` composite. -/
def scaleAlpha (a b : ℕ) : ℕ := (a * b * 2 + 255) / 510

/-- `dest-in` composite: destination colour kept, destination alpha
multiplied by the source alpha. -/
def destIn (dst src : Img) : Img :=
  ⟨dst.w, dst.h, fun x y =>
    ⟨(dst.px x y).r, (dst.px x y).g, (dst.px x y).b,
      scaleAlpha (dst.px x y).a (src.px x y).a⟩⟩

/-- `sharp(...).resize(w, h)` modelled as nearest-neighbour sampling. -/
def resizeNearest (src : Img) (w h : ℕ) : Img :=
  ⟨w, h, fun x y => src.px (x * src.w / w) (y * src.h / h)⟩

/-- `ensureAlpha`: the identity on this always-RGBA model. -/
def ensureAlpha (img : Img) : Img := img

/-- A fill or stroke paint: colour plus alpha. -/
structure Paint where
  r : ℕ
  g : ℕ
  b : ℕ
  a : ℕ
deriving DecidableEq, Repr

/-- A mask shape as consumed by `renderToBuffer`/`drawBaseShape`: the
rasterized fill region and stroke region of its path (geometry is external
skia; only the region matters per pixel) together with its optional fill
and stroke style state.  Effects are absent on mask shapes considered
here. -/
structure MaskShape where
  canvasW : ℕ
  canvasH : ℕ
  region : ℕ → ℕ → Bool
  strokeRegion : ℕ → ℕ → Bool
  fill : Option Paint
  stroke : Option Paint

/-- `source-over` alpha: `a_src + a_dst*(255-a_src)/255`. -/
def overAlpha (srcA dstA : ℕ) : ℕ := srcA + scaleAlpha dstA (255 - srcA)

/-- `SubmoduleRenderServiceShape.renderToBuffer`/`drawBaseShape` at the
pixel level: a transparent canvas, the fill painted over the path region
only when a fill is set, then the stroke painted over the stroke region
only when a stroke is set.  This is the load-bearing structure for the
clip-mask claim: an unstyled shape rasterizes fully transparent. -/
def renderShapeToBuffer (s : MaskShape) : Img :=
  ⟨s.canvasW, s.canvasH, fun x y =>
    let fillLayer : Pix :=
      match s.fill with
      | some f => if s.region x y then ⟨f.r, f.g, f.b, f.a⟩ else ⟨0, 0, 0, 0⟩
      | none => ⟨0, 0, 0, 0⟩
    match s.stroke with
    | some st =>
        if s.strokeRegion x y then
          ⟨st.r, st.g, st.b, overAlpha st.a fillLayer.a⟩
        else fillLayer
    | none => fillLayer⟩

/-- `MaskConfig` from `mask/types.ts`; external `source` strings stand for
their decoded buffers. -/
inductive MaskConfig where
  | clip (shape : Option MaskShape)
  | alpha (source : Option Img)
  | luminance (source : Option Img)

/-- `applyMask` from `magick-processor.ts`, with `toGrey` modelling sharp's
external `greyscale()` per-pixel luminance. -/
def applyMask (toGrey : Pix → ℕ) (contentBuffer : Img) (mask : MaskConfig) :
    Img :=
  let width := max 1 contentBuffer.w
  let height := max 1 contentBuffer.h
  match mask with
  | .clip none => contentBuffer
  | .clip (some shape) =>
      let shapeMask := renderShapeToBuffer shape
      let resizedMask := resizeNearest shapeMask width height
      destIn (ensureAlpha contentBuffer) resizedMask
  | .alpha source =>
      let sourceMask := source.getD contentBuffer
      let resizedMask := ensureAlpha (resizeNearest sourceMask width height)
      destIn (ensureAlpha contentBuffer) resizedMask
  | .luminance source =>
      let sourceMask := source.getD contentBuffer
      let resizedMask := ensureAlpha (resizeNearest sourceMask width height)
      let luminanceMask : Img :=
        ⟨width, height, fun x y => ⟨255, 255, 255, toGrey (resizedMask.px x y)⟩⟩
      destIn (ensureAlpha contentBuffer) luminanceMask

/-- Fully opaque white 2×2 content. -/
def opaqueContent : Img := ⟨2, 2, fun _ _ => ⟨255, 255, 255, 255⟩⟩

/-- A full-canvas 2×2 mask shape with no fill and no stroke (exactly the
README's `Mask.clip(new Ellipse(...))` usage, which never sets a fill). -/
def unfilledShape : MaskShape :=
  ⟨2, 2, fun _ _ => true, fun _ _ => false, none, none⟩

/-- The same geometry with an opaque fill set. -/
def filledShape : MaskShape :=
  ⟨2, 2, fun _ _ => true, fun _ _ => false, some ⟨0, 0, 0, 255⟩, none⟩

/-- C3: the code renders a clip-mask shape through the styled shape
renderer, so a mask shape with no fill rasterizes fully transparent and the
`dest-in` composite erases the content (alpha 0), while the same geometry
with a fill keeps it (alpha 255) — clip masking does depend on the style,
contradicting the spec's "geometry only, style ignored" (and the repo
README's unfilled `Mask.clip(...)` examples).  Only the no-shape no-op part
of the claim holds. -/
theorem applyMask_clip_reads_style :
    ((applyMask Pix.r opaqueContent (.clip (some unfilledShape))).px 0 0).a = 0
    ∧ ((applyMask Pix.r opaqueContent (.clip (some filledShape))).px 0 0).a = 255
    ∧ applyMask Pix.r opaqueContent (.clip none) = opaqueContent := by
  refine ⟨by decide, by decide, rfl⟩

end AssetIO

namespace AssetIO

/-- C10: an alpha or luminance mask with no source falls back to the content
buffer itself: with `alpha`, the content's own alpha is dest-in composited
onto the content (self-masking, per-pixel `round(a*a/255)`); with
`luminance`, the content's own greyscale luminance becomes the alpha that is
composited onto it — neither case fails or is a no-op. -/
theorem applyMask_no_source_self_mask (toGrey : Pix → ℕ) (content : Img)
    (hw : 0 < content.w) (hh : 0 < content.h) (x y : ℕ) :
    applyMask toGrey content (.alpha none) =
      destIn (ensureAlpha content)
        (ensureAlpha
          (resizeNearest content (max 1 content.w) (max 1 content.h)))
    ∧ (applyMask toGrey content (.alpha none)).px x y =
        ⟨(content.px x y).r, (content.px x y).g, (content.px x y).b,
          scaleAlpha (content.px x y).a (content.px x y).a⟩
    ∧ (applyMask toGrey content (.luminance none)).px x y =
        ⟨(content.px x y).r, (content.px x y).g, (content.px x y).b,
          scaleAlpha (content.px x y).a (toGrey (content.px x y))⟩ := by
  have hw1 : max 1 content.w = content.w := Nat.max_eq_right hw
  have hh1 : max 1 content.h = content.h := Nat.max_eq_right hh
  have hxx : x * content.w / content.w = x := Nat.mul_div_cancel x hw
  have hyy : y * content.h / content.h = y := Nat.mul_div_cancel y hh
  refine ⟨rfl, ?_, ?_⟩
  · simp only [applyMask, destIn, resizeNearest, ensureAlpha, Option.getD,
      hw1, hh1, hxx, hyy]
  · simp only [applyMask, destIn, resizeNearest, ensureAlpha, Option.getD,
      hw1, hh1, hxx, hyy]

/-- A 1×1 content buffer with distinct channel values for the self-mask
witness. -/
def selfMaskContent : Img := ⟨1, 1, fun _ _ => ⟨10, 20, 30, 100⟩⟩

theorem applyMask_no_source_self_mask_witness :
    applyMask Pix.g selfMaskContent (.alpha none) =
      destIn (ensureAlpha selfMaskContent)
        (ensureAlpha (resizeNearest selfMaskContent
          (max 1 selfMaskContent.w) (max 1 selfMaskContent.h)))
    ∧ (applyMask Pix.g selfMaskContent (.alpha none)).px 0 0 =
        ⟨(selfMaskContent.px 0 0).r, (selfMaskContent.px 0 0).g,
          (selfMaskContent.px 0 0).b,
          scaleAlpha (selfMaskContent.px 0 0).a (selfMaskContent.px 0 0).a⟩
    ∧ (applyMask Pix.g selfMaskContent (.luminance none)).px 0 0 =
        ⟨(selfMaskContent.px 0 0).r, (selfMaskContent.px 0 0).g,
          (selfMaskContent.px 0 0).b,
          scaleAlpha (selfMaskContent.px 0 0).a
            (Pix.g (selfMaskContent.px 0 0))⟩ :=
  applyMask_no_source_self_mask Pix.g selfMaskContent (by decide) (by decide)
    0 0

end AssetIO

namespace AssetIO

/-! ## Region-blur point ordering (`toOrderedBlurPoints`, asset builder)

`Math.atan2` is modelled by `Complex.arg` over exact rationals cast to ℝ
(so these definitions are noncomputable); the JavaScript sort is modelled
by an insertion sort over the source's comparator — the comparator is a
strict total order on the entries that matter (distinct indices break all
consistent ties), so the choice of sorting algorithm is immaterial and is
proved so via sortedness + permutation uniqueness. -/

/-- A region-blur contour point (`BlurPoint`). -/
structure BlurPoint where
  x : PlacementValue
  y : PlacementValue
deriving DecidableEq, Repr

/-- `toPlacementNumber`: a number as-is, a string via
`parseFloat(value.slice(0, -1))`. -/
def toPlacementNumber (value : PlacementValue) : JsNum :=
  match value with
  | .num n => n
  | .str s => parseFloat (jsDropLast s)

/-- JavaScript `typeof` of a placement value. -/
def typeofPV : PlacementValue → String
  | .num _ => "number"
  | .str _ => "string"

/-- `hasMixedBlurPointUnits`: the set of `typeof`s of the xs (or of the ys)
has more than one element. -/
def hasMixedBlurPointUnits (points : List BlurPoint) : Bool :=
  1 < (points.map (fun p => typeofPV p.x)).dedup.length ||
    1 < (points.map (fun p => typeofPV p.y)).dedup.length

/-- One element of `sortablePoints`: the point, its original index, and its
parsed coordinates. -/
structure SortableBlurPoint where
  point : BlurPoint
  index : ℕ
  x : JsNum
  y : JsNum

/-- `points.map((point, index) => ({point, index, x, y}))`. -/
def toSortablePoints (points : List BlurPoint) : List SortableBlurPoint :=
  points.enum.map (fun ip =>
    ⟨ip.2, ip.1, toPlacementNumber ip.2.x, toPlacementNumber ip.2.y⟩)

/-- `reduce((sum, point) => sum + point.x, 0)`. -/
def jsSumX (l : List SortableBlurPoint) : JsNum :=
  l.foldl (fun sum p => sum.add p.x) (.fin 0)

/-- `reduce((sum, point) => sum + point.y, 0)`. -/
def jsSumY (l : List SortableBlurPoint) : JsNum :=
  l.foldl (fun sum p => sum.add p.y) (.fin 0)

/-- `Math.atan2` (`none` is NaN; infinite arguments take the values fixed by
the ECMA specification; signed zero is not distinguished). -/
noncomputable def jsAtan2 : JsNum → JsNum → Option ℝ
  | .nan, _ => none
  | _, .nan => none
  | .posInf, .posInf => some (Real.pi / 4)
  | .posInf, .negInf => some (3 * Real.pi / 4)
  | .negInf, .posInf => some (-(Real.pi / 4))
  | .negInf, .negInf => some (-(3 * Real.pi / 4))
  | .posInf, .fin _ => some (Real.pi / 2)
  | .negInf, .fin _ => some (-(Real.pi / 2))
  | .fin _, .posInf => some 0
  | .fin a, .negInf => some (if 0 ≤ a then Real.pi else -Real.pi)
  | .fin a, .fin b => some (Complex.arg ⟨(b : ℝ), (a : ℝ)⟩)

/-- The angle key of the sort comparator. -/
noncomputable def sortAngle (c : JsNum × JsNum) (e : SortableBlurPoint) :
    Option ℝ :=
  jsAtan2 (e.y.sub c.2) (e.x.sub c.1)

/-- The squared-distance key of the sort comparator. -/
def sortDist (c : JsNum × JsNum) (e : SortableBlurPoint) : JsNum :=
  ((e.x.sub c.1).mul (e.x.sub c.1)).add ((e.y.sub c.2).mul (e.y.sub c.2))

/-- Sign of a JavaScript number used as a comparator result; NaN counts as
zero, as in the ECMA `SortCompare` wrapper. -/
def numToOrdering : JsNum → Ordering
  | .fin q => if q < 0 then .lt else if 0 < q then .gt else .eq
  | .posInf => .gt
  | .negInf => .lt
  | .nan => .eq

open Classical in
/-- The source's sort comparator: angle difference when the angles are not
strictly equal (NaN differences count as zero), then distance difference
when the distances are not strictly equal, then index difference. -/
noncomputable def compareSortable (c : JsNum × JsNum)
    (l r : SortableBlurPoint) : Ordering :=
  let leftAngle := sortAngle c l
  let rightAngle := sortAngle c r
  if ∃ x, leftAngle = some x ∧ rightAngle = some x then
    let leftDistance := sortDist c l
    let rightDistance := sortDist c r
    if leftDistance.strictEq rightDistance then
      if l.index < r.index then .lt
      else if r.index < l.index then .gt
      else .eq
    else numToOrdering (leftDistance.sub rightDistance)
  else
    match leftAngle, rightAngle with
    | some x, some y => if x < y then .lt else if y < x then .gt else .eq
    | _, _ => .eq

/-- Insert into a sorted list: walk past every element the new one compares
greater than. -/
def insertByCmp (cmp : α → α → Ordering) (a : α) : List α → List α
  | [] => [a]
  | b :: bs => if cmp a b = .gt then b :: insertByCmp cmp a bs else a :: b :: bs

/-- Insertion sort by a comparator (models `Array.prototype.sort`; for the
consistent comparators that occur here the sorted result is unique, so the
algorithm choice is immaterial). -/
def sortByCmp (cmp : α → α → Ordering) : List α → List α
  | [] => []
  | a :: rest => insertByCmp cmp a (sortByCmp cmp rest)

/-- `(y, then x)` strict comparison of the rotation-start scan. -/
def isYXLess (a b : SortableBlurPoint) : Bool :=
  a.y.lt b.y || (a.y.strictEq b.y && a.x.lt b.x)

/-- The scan for the first index holding the minimal `(y, then x)` point. -/
def minYXIndexLoop : List SortableBlurPoint → ℕ → ℕ → SortableBlurPoint → ℕ
  | [], _, best, _ => best
  | p :: rest, i, best, bestP =>
      if isYXLess p bestP then minYXIndexLoop rest (i + 1) i p
      else minYXIndexLoop rest (i + 1) best bestP

/-- `firstPointIndex` of `toOrderedBlurPoints`. -/
def minYXIndex : List SortableBlurPoint → ℕ
  | [] => 0
  | p :: rest => minYXIndexLoop rest 1 0 p

/-- The `centroidX`/`centroidY` pair of `toOrderedBlurPoints`. -/
noncomputable def blurCentroid (sortablePoints : List SortableBlurPoint) :
    JsNum × JsNum :=
  ((jsSumX sortablePoints).div (.fin sortablePoints.length),
   (jsSumY sortablePoints).div (.fin sortablePoints.length))

/-- The `orderedPoints` list of `toOrderedBlurPoints`: the entries sorted by
the source comparator around their centroid. -/
noncomputable def blurOrdered (sortablePoints : List SortableBlurPoint) :
    List SortableBlurPoint :=
  sortByCmp (compareSortable (blurCentroid sortablePoints)) sortablePoints

/-- `toOrderedBlurPoints` from the asset builder: fewer than three points or
mixed units are returned in input order (as copies); otherwise the points
are sorted around the centroid by angle (ties by squared distance, then
original index) and rotated so the minimal `(y, then x)` point comes
first. -/
noncomputable def toOrderedBlurPoints (points : List BlurPoint) :
    List BlurPoint :=
  if points.length < 3 ∨ hasMixedBlurPointUnits points then
    points.map (fun p => p)
  else
    ((blurOrdered (toSortablePoints points)).drop
        (minYXIndex (blurOrdered (toSortablePoints points))) ++
      (blurOrdered (toSortablePoints points)).take
        (minYXIndex (blurOrdered (toSortablePoints points)))).map
      (fun entry => entry.point)

/-- C4 counterexample: three points with mixed units (two numeric, one
percentage) pass the length guard but skip the reordering entirely, so two
permutations of the same point set yield different ordered polygons — the
recorded ordering is not a pure function of the input set as claimed. -/
theorem toOrderedBlurPoints_permutation_counterexample :
    3 ≤ ([⟨.num (.fin 0), .num (.fin 0)⟩, ⟨.num (.fin 10), .num (.fin 0)⟩,
        ⟨.str "50%", .str "50%"⟩] : List BlurPoint).length
    ∧ ([⟨.num (.fin 0), .num (.fin 0)⟩, ⟨.num (.fin 10), .num (.fin 0)⟩,
        ⟨.str "50%", .str "50%"⟩] : List BlurPoint).Perm
      [⟨.num (.fin 10), .num (.fin 0)⟩, ⟨.num (.fin 0), .num (.fin 0)⟩,
        ⟨.str "50%", .str "50%"⟩]
    ∧ toOrderedBlurPoints
        [⟨.num (.fin 0), .num (.fin 0)⟩, ⟨.num (.fin 10), .num (.fin 0)⟩,
          ⟨.str "50%", .str "50%"⟩] ≠
      toOrderedBlurPoints
        [⟨.num (.fin 10), .num (.fin 0)⟩, ⟨.num (.fin 0), .num (.fin 0)⟩,
          ⟨.str "50%", .str "50%"⟩] := by
  refine ⟨by decide, List.Perm.swap _ _ _, ?_⟩
  have hmix : ∀ (p q : BlurPoint),
      hasMixedBlurPointUnits [p, q, ⟨.str "50%", .str "50%"⟩] = true →
      toOrderedBlurPoints [p, q, ⟨.str "50%", .str "50%"⟩] =
        [p, q, ⟨.str "50%", .str "50%"⟩] := by
    intro p q hm
    rw [toOrderedBlurPoints, if_pos (Or.inr hm)]
    simp
  rw [hmix _ _ (by decide), hmix _ _ (by decide)]
  decide

end AssetIO

namespace AssetIO

/-! ### Generic facts about `sortByCmp`: permutation, sortedness with
respect to a key the comparator agrees with, and uniqueness of a sorted
permutation under key-injectivity. -/

theorem insertByCmp_perm (cmp : α → α → Ordering) (a : α) (l : List α) :
    (insertByCmp cmp a l).Perm (a :: l) := by
  induction l with
  | nil => exact List.Perm.refl _
  | cons b bs ih =>
      by_cases h : cmp a b = .gt
      · simp only [insertByCmp, if_pos h]
        exact (ih.cons b).trans (List.Perm.swap a b bs)
      · simp only [insertByCmp, if_neg h]
        exact List.Perm.refl _

theorem sortByCmp_perm (cmp : α → α → Ordering) (l : List α) :
    (sortByCmp cmp l).Perm l := by
  induction l with
  | nil => exact List.Perm.refl _
  | cons a rest ih =>
      exact (insertByCmp_perm cmp a (sortByCmp cmp rest)).trans (ih.cons a)

theorem pairwise_le_insertByCmp {κ : Type} [LinearOrder κ]
    (cmp : α → α → Ordering) (key : α → κ) (P : α → Prop)
    (hgt : ∀ a b, P a → P b → (cmp a b = .gt ↔ key b < key a))
    (a : α) (l : List α) (ha : P a) (hl : ∀ x ∈ l, P x)
    (hp : l.Pairwise (fun u v => key u ≤ key v)) :
    (insertByCmp cmp a l).Pairwise (fun u v => key u ≤ key v) := by
  induction l with
  | nil => simp [insertByCmp]
  | cons b bs ih =>
      have hb : P b := hl b (List.mem_cons_self b bs)
      obtain ⟨hble, hpbs⟩ := List.pairwise_cons.mp hp
      by_cases h : cmp a b = .gt
      · simp only [insertByCmp, if_pos h]
        have hba : key b < key a := (hgt a b ha hb).mp h
        refine List.pairwise_cons.mpr ⟨?_, ?_⟩
        · intro x hx
          rcases List.mem_cons.mp ((insertByCmp_perm cmp a bs).subset hx) with
            rfl | hxbs
          · exact le_of_lt hba
          · exact hble x hxbs
        · exact ih (fun x hx => hl x (List.mem_cons_of_mem b hx)) hpbs
      · simp only [insertByCmp, if_neg h]
        have hab : key a ≤ key b :=
          not_lt.mp (fun hlt => h ((hgt a b ha hb).mpr hlt))
        refine List.pairwise_cons.mpr ⟨?_, hp⟩
        intro x hx
        rcases List.mem_cons.mp hx with rfl | hxbs
        · exact hab
        · exact le_trans hab (hble x hxbs)

theorem pairwise_le_sortByCmp {κ : Type} [LinearOrder κ]
    (cmp : α → α → Ordering) (key : α → κ) (P : α → Prop)
    (hgt : ∀ a b, P a → P b → (cmp a b = .gt ↔ key b < key a))
    (l : List α) (hl : ∀ x ∈ l, P x) :
    (sortByCmp cmp l).Pairwise (fun u v => key u ≤ key v) := by
  induction l with
  | nil => simp [sortByCmp]
  | cons a rest ih =>
      exact pairwise_le_insertByCmp cmp key P hgt a (sortByCmp cmp rest)
        (hl a (List.mem_cons_self a rest))
        (fun x hx =>
          hl x (List.mem_cons_of_mem a ((sortByCmp_perm cmp rest).subset hx)))
        (ih (fun x hx => hl x (List.mem_cons_of_mem a hx)))

theorem eq_of_perm_of_pairwise_key_le {κ : Type} [LinearOrder κ]
    (key : α → κ) :
    ∀ (l1 l2 : List α), l1.Perm l2 →
      l1.Pairwise (fun u v => key u ≤ key v) →
      l2.Pairwise (fun u v => key u ≤ key v) →
      (∀ a ∈ l1, ∀ b ∈ l2, key a = key b → a = b) →
      l1 = l2 := by
  intro l1
  induction l1 with
  | nil =>
      intro l2 hperm _ _ _
      exact hperm.nil_eq
  | cons a t ih =>
      intro l2 hperm hp1 hp2 hinj
      cases l2 with
      | nil => exact absurd (List.perm_nil.mp hperm) (List.cons_ne_nil a t)
      | cons b s =>
          by_cases heq : a = b
          · subst heq
            have ht : t.Perm s := hperm.cons_inv
            have := ih s ht (List.pairwise_cons.mp hp1).2
              (List.pairwise_cons.mp hp2).2
              (fun x hx y hy hxy =>
                hinj x (List.mem_cons_of_mem a hx) y
                  (List.mem_cons_of_mem a hy) hxy)
            rw [this]
          · have hmem_a : a ∈ b :: s := hperm.subset (List.mem_cons_self a t)
            have hmem_b : b ∈ a :: t :=
              hperm.symm.subset (List.mem_cons_self b s)
            have ha_s : a ∈ s := by
              rcases List.mem_cons.mp hmem_a with h | h
              · exact absurd h heq
              · exact h
            have hb_t : b ∈ t := by
              rcases List.mem_cons.mp hmem_b with h | h
              · exact absurd h.symm heq
              · exact h
            have h1 : key a ≤ key b := (List.pairwise_cons.mp hp1).1 b hb_t
            have h2 : key b ≤ key a := (List.pairwise_cons.mp hp2).1 a ha_s
            exact absurd
              (hinj a (List.mem_cons_self a t) b (List.mem_cons_self b s)
                (le_antisymm h1 h2)) heq

end AssetIO

namespace AssetIO

/-! ### The comparator as a linear-order key on finite entries -/

/-- The rational value of a finite JavaScript number (junk elsewhere). -/
def jsToRat : JsNum → ℚ
  | .fin q => q
  | _ => 0

/-- The parsed rational coordinate of a placement value. -/
def pvRat (v : PlacementValue) : ℚ := jsToRat (toPlacementNumber v)

/-- A contour point whose two coordinates are plain finite numbers. -/
def isFiniteNumericPt (p : BlurPoint) : Bool :=
  match p.x, p.y with
  | .num (.fin _), .num (.fin _) => true
  | _, _ => false

/-- Both parsed coordinates of an entry are finite. -/
def entryFin (e : SortableBlurPoint) : Prop :=
  (∃ q, e.x = JsNum.fin q) ∧ (∃ q, e.y = JsNum.fin q)

/-- The linear-order key the comparator realises on finite entries:
angle-from-centroid, then squared distance, then original index. -/
noncomputable def entryKey (c : ℚ × ℚ) (e : SortableBlurPoint) :
    ℝ ×ₗ (ℚ ×ₗ ℕ) :=
  toLex (Complex.arg ⟨((jsToRat e.x - c.1 : ℚ) : ℝ), ((jsToRat e.y - c.2 : ℚ) : ℝ)⟩,
    toLex ((jsToRat e.x - c.1) * (jsToRat e.x - c.1) +
      (jsToRat e.y - c.2) * (jsToRat e.y - c.2), e.index))

/-- The index-free value key on points. -/
noncomputable def vKey (c : ℚ × ℚ) (p : BlurPoint) : ℝ ×ₗ ℚ :=
  toLex (Complex.arg ⟨((pvRat p.x - c.1 : ℚ) : ℝ), ((pvRat p.y - c.2 : ℚ) : ℝ)⟩,
    (pvRat p.x - c.1) * (pvRat p.x - c.1) +
      (pvRat p.y - c.2) * (pvRat p.y - c.2))

theorem JsNum.sub_fin (a b : ℚ) :
    JsNum.sub (.fin a) (.fin b) = .fin (a - b) := by
  simp [JsNum.sub, JsNum.add, JsNum.neg, sub_eq_add_neg]

theorem sortAngle_fin (c : ℚ × ℚ) (e : SortableBlurPoint) (ax ay : ℚ)
    (hax : e.x = .fin ax) (hay : e.y = .fin ay) :
    sortAngle (.fin c.1, .fin c.2) e =
      some (Complex.arg ⟨((ax - c.1 : ℚ) : ℝ), ((ay - c.2 : ℚ) : ℝ)⟩) := by
  simp [sortAngle, hax, hay, JsNum.sub_fin, jsAtan2]

theorem sortDist_fin (c : ℚ × ℚ) (e : SortableBlurPoint) (ax ay : ℚ)
    (hax : e.x = .fin ax) (hay : e.y = .fin ay) :
    sortDist (.fin c.1, .fin c.2) e =
      .fin ((ax - c.1) * (ax - c.1) + (ay - c.2) * (ay - c.2)) := by
  simp [sortDist, hax, hay, JsNum.sub_fin, JsNum.mul, JsNum.add]

theorem entryKey_eq (c : ℚ × ℚ) (e : SortableBlurPoint) (ax ay : ℚ)
    (hax : e.x = .fin ax) (hay : e.y = .fin ay) :
    entryKey c e =
      toLex (Complex.arg ⟨((ax - c.1 : ℚ) : ℝ), ((ay - c.2 : ℚ) : ℝ)⟩,
        toLex ((ax - c.1) * (ax - c.1) + (ay - c.2) * (ay - c.2), e.index)) := by
  simp [entryKey, hax, hay, jsToRat]

/-- On finite entries, the source comparator returns `gt` exactly when the
right entry's key precedes the left entry's. -/
theorem compareSortable_gt_iff (c : ℚ × ℚ) (a b : SortableBlurPoint)
    (ha : entryFin a) (hb : entryFin b) :
    compareSortable (.fin c.1, .fin c.2) a b = .gt ↔
      entryKey c b < entryKey c a := by
  obtain ⟨⟨ax, hax⟩, ⟨ay, hay⟩⟩ := ha
  obtain ⟨⟨bx, hbx⟩, ⟨by', hby⟩⟩ := hb
  set argA : ℝ :=
    Complex.arg ⟨((ax - c.1 : ℚ) : ℝ), ((ay - c.2 : ℚ) : ℝ)⟩ with hargA
  set argB : ℝ :=
    Complex.arg ⟨((bx - c.1 : ℚ) : ℝ), ((by' - c.2 : ℚ) : ℝ)⟩ with hargB
  set dA : ℚ := (ax - c.1) * (ax - c.1) + (ay - c.2) * (ay - c.2) with hdA
  set dB : ℚ := (bx - c.1) * (bx - c.1) + (by' - c.2) * (by' - c.2) with hdB
  have hKA := entryKey_eq c a ax ay hax hay
  have hKB := entryKey_eq c b bx by' hbx hby
  rw [hKA, hKB, Prod.Lex.lt_iff]
  simp only [compareSortable, sortAngle_fin c a ax ay hax hay,
    sortAngle_fin c b bx by' hbx hby, sortDist_fin c a ax ay hax hay,
    sortDist_fin c b bx by' hbx hby, ← hargA, ← hargB, ← hdA, ← hdB]
  by_cases hang : argA = argB
  · rw [if_pos ⟨argA, rfl, by rw [hang]⟩]
    simp only [JsNum.strictEq]
    by_cases hd : dA = dB
    · rw [if_pos (by simp [hd])]
      by_cases hi1 : a.index < b.index
      · rw [if_pos hi1]
        constructor
        · intro h
          cases h
        · intro h
          rcases h with h | ⟨_, h2⟩
          · rw [hang] at h
            exact absurd h (lt_irrefl _)
          · rw [Prod.Lex.lt_iff] at h2
            rcases h2 with h2 | ⟨_, h2⟩
            · rw [hd] at h2
              exact absurd h2 (lt_irrefl _)
            · omega
      · by_cases hi2 : b.index < a.index
        · rw [if_neg hi1, if_pos hi2]
          refine ⟨fun _ => Or.inr ⟨hang.symm, ?_⟩, fun _ => rfl⟩
          rw [Prod.Lex.lt_iff]
          exact Or.inr ⟨hd.symm, hi2⟩
        · rw [if_neg hi1, if_neg hi2]
          constructor
          · intro h
            cases h
          · intro h
            rcases h with h | ⟨_, h2⟩
            · rw [hang] at h
              exact absurd h (lt_irrefl _)
            · rw [Prod.Lex.lt_iff] at h2
              rcases h2 with h2 | ⟨_, h2⟩
              · rw [hd] at h2
                exact absurd h2 (lt_irrefl _)
              · omega
    · rw [if_neg (by simp [hd]), JsNum.sub_fin]
      simp only [numToOrdering]
      by_cases hlt : dA - dB < 0
      · rw [if_pos hlt]
        constructor
        · intro h
          cases h
        · intro h
          rcases h with h | ⟨_, h2⟩
          · rw [hang] at h
            exact absurd h (lt_irrefl _)
          · rw [Prod.Lex.lt_iff] at h2
            rcases h2 with h2 | ⟨heq, _⟩
            · exact absurd (by linarith) (not_lt.mpr (le_of_lt h2))
            · exact absurd heq.symm hd
      · by_cases hgt' : 0 < dA - dB
        · rw [if_neg hlt, if_pos hgt']
          refine ⟨fun _ => Or.inr ⟨hang.symm, ?_⟩, fun _ => rfl⟩
          rw [Prod.Lex.lt_iff]
          exact Or.inl (by linarith)
        · exact absurd (by linarith : dA = dB) hd
  · rw [if_neg (by
      rintro ⟨x, hx1, hx2⟩
      rw [Option.some.injEq] at hx1 hx2
      exact hang (hx1.trans hx2.symm))]
    by_cases h1 : argA < argB
    · rw [if_pos h1]
      constructor
      · intro h
        cases h
      · intro h
        rcases h with h | ⟨heq, _⟩
        · exact absurd h1 (not_lt.mpr (le_of_lt h))
        · exact absurd heq.symm hang
    · by_cases h2 : argB < argA
      · rw [if_neg h1, if_pos h2]
        exact ⟨fun _ => Or.inl h2, fun _ => rfl⟩
      · exact absurd (le_antisymm (not_lt.mp h2) (not_lt.mp h1)) hang

end AssetIO

namespace AssetIO

/-! ### Entry invariants, centroid, and transfer to value keys -/

theorem isFiniteNumericPt_spec (p : BlurPoint)
    (h : isFiniteNumericPt p = true) :
    p.x = .num (.fin (pvRat p.x)) ∧ p.y = .num (.fin (pvRat p.y)) := by
  rcases p with ⟨px, py⟩
  cases px with
  | num n =>
      cases py with
      | num m =>
          cases n with
          | fin qx =>
              cases m with
              | fin qy => exact ⟨rfl, rfl⟩
              | nan => simp [isFiniteNumericPt] at h
              | posInf => simp [isFiniteNumericPt] at h
              | negInf => simp [isFiniteNumericPt] at h
          | nan => simp [isFiniteNumericPt] at h
          | posInf => simp [isFiniteNumericPt] at h
          | negInf => simp [isFiniteNumericPt] at h
      | str s =>
          cases n with
          | fin qx => simp [isFiniteNumericPt] at h
          | nan => simp [isFiniteNumericPt] at h
          | posInf => simp [isFiniteNumericPt] at h
          | negInf => simp [isFiniteNumericPt] at h
  | str s => simp [isFiniteNumericPt] at h

theorem toSortablePoints_mem (ps : List BlurPoint) (e : SortableBlurPoint)
    (he : e ∈ toSortablePoints ps) :
    e.point ∈ ps ∧ e.x = toPlacementNumber e.point.x ∧
      e.y = toPlacementNumber e.point.y := by
  obtain ⟨ip, hip, rfl⟩ := List.mem_map.mp he
  refine ⟨?_, rfl, rfl⟩
  have : ip.2 ∈ ps := by
    rw [← List.enum_map_snd ps]
    exact List.mem_map_of_mem Prod.snd hip
  exact this

/-- The coordinate invariant every entry of a numeric point list keeps
through sorting: parsed coordinates are the finite numbers of its point. -/
def entryOfNumeric (ps : List BlurPoint) (e : SortableBlurPoint) : Prop :=
  e.point ∈ ps ∧ e.x = .fin (pvRat e.point.x) ∧ e.y = .fin (pvRat e.point.y)

theorem toSortablePoints_invariant (ps : List BlurPoint)
    (hfin : ∀ p ∈ ps, isFiniteNumericPt p = true) :
    ∀ e ∈ toSortablePoints ps, entryOfNumeric ps e := by
  intro e he
  obtain ⟨hmem, hx, hy⟩ := toSortablePoints_mem ps e he
  obtain ⟨hpx, hpy⟩ := isFiniteNumericPt_spec e.point (hfin e.point hmem)
  refine ⟨hmem, ?_, ?_⟩
  · rw [hx]
    conv_lhs => rw [hpx]
    rfl
  · rw [hy]
    conv_lhs => rw [hpy]
    rfl


theorem entryOfNumeric_entryFin {ps : List BlurPoint} {e : SortableBlurPoint}
    (h : entryOfNumeric ps e) : entryFin e :=
  ⟨⟨_, h.2.1⟩, ⟨_, h.2.2⟩⟩

theorem toSortablePoints_length (ps : List BlurPoint) :
    (toSortablePoints ps).length = ps.length := by
  simp [toSortablePoints]

theorem toSortablePoints_map_point (ps : List BlurPoint) :
    (toSortablePoints ps).map (fun e => e.point) = ps := by
  simp only [toSortablePoints, List.map_map]
  have : ((fun e : SortableBlurPoint => e.point) ∘ fun ip : ℕ × BlurPoint =>
      (⟨ip.2, ip.1, toPlacementNumber ip.2.x, toPlacementNumber ip.2.y⟩ :
        SortableBlurPoint)) = Prod.snd := rfl
  rw [this, List.enum_map_snd]

theorem jsSumX_fin (l : List SortableBlurPoint)
    (hl : ∀ e ∈ l, ∃ q, e.x = JsNum.fin q) :
    jsSumX l = .fin ((l.map (fun e => jsToRat e.x)).sum) := by
  suffices H : ∀ (a : ℚ), l.foldl (fun (sum : JsNum) p => sum.add p.x)
      (JsNum.fin a) =
      JsNum.fin (a + (l.map (fun e => jsToRat e.x)).sum) by
    have := H 0
    rw [zero_add] at this
    exact this
  induction l with
  | nil => intro a; simp
  | cons e t ih =>
      intro a
      obtain ⟨q, hq⟩ := hl e (List.mem_cons_self e t)
      have ht : ∀ x ∈ t, ∃ q, x.x = JsNum.fin q :=
        fun x hx => hl x (List.mem_cons_of_mem e hx)
      simp only [List.foldl_cons, hq, List.map_cons, List.sum_cons]
      have hadd : (JsNum.fin a).add (JsNum.fin q) = JsNum.fin (a + q) := rfl
      rw [hadd, ih ht (a + q)]
      simp only [jsToRat]
      ring_nf

theorem jsSumY_fin (l : List SortableBlurPoint)
    (hl : ∀ e ∈ l, ∃ q, e.y = JsNum.fin q) :
    jsSumY l = .fin ((l.map (fun e => jsToRat e.y)).sum) := by
  suffices H : ∀ (a : ℚ), l.foldl (fun (sum : JsNum) p => sum.add p.y)
      (JsNum.fin a) =
      JsNum.fin (a + (l.map (fun e => jsToRat e.y)).sum) by
    have := H 0
    rw [zero_add] at this
    exact this
  induction l with
  | nil => intro a; simp
  | cons e t ih =>
      intro a
      obtain ⟨q, hq⟩ := hl e (List.mem_cons_self e t)
      have ht : ∀ x ∈ t, ∃ q, x.y = JsNum.fin q :=
        fun x hx => hl x (List.mem_cons_of_mem e hx)
      simp only [List.foldl_cons, hq, List.map_cons, List.sum_cons]
      have hadd : (JsNum.fin a).add (JsNum.fin q) = JsNum.fin (a + q) := rfl
      rw [hadd, ih ht (a + q)]
      simp only [jsToRat]
      ring_nf

theorem toSortablePoints_map_xRat (ps : List BlurPoint) :
    (toSortablePoints ps).map (fun e => jsToRat e.x) =
      ps.map (fun p => pvRat p.x) := by
  simp only [toSortablePoints, List.map_map]
  have : ((fun e : SortableBlurPoint => jsToRat e.x) ∘ fun ip : ℕ × BlurPoint =>
      (⟨ip.2, ip.1, toPlacementNumber ip.2.x, toPlacementNumber ip.2.y⟩ :
        SortableBlurPoint)) = (fun p => pvRat p.x) ∘ Prod.snd := rfl
  rw [this, ← List.map_map, List.enum_map_snd]

theorem toSortablePoints_map_yRat (ps : List BlurPoint) :
    (toSortablePoints ps).map (fun e => jsToRat e.y) =
      ps.map (fun p => pvRat p.y) := by
  simp only [toSortablePoints, List.map_map]
  have : ((fun e : SortableBlurPoint => jsToRat e.y) ∘ fun ip : ℕ × BlurPoint =>
      (⟨ip.2, ip.1, toPlacementNumber ip.2.x, toPlacementNumber ip.2.y⟩ :
        SortableBlurPoint)) = (fun p => pvRat p.y) ∘ Prod.snd := rfl
  rw [this, ← List.map_map, List.enum_map_snd]

theorem entryKey_le_imp_vKey_le (c : ℚ × ℚ) (a b : SortableBlurPoint)
    (ha : a.x = .fin (pvRat a.point.x) ∧ a.y = .fin (pvRat a.point.y))
    (hb : b.x = .fin (pvRat b.point.x) ∧ b.y = .fin (pvRat b.point.y)) :
    entryKey c a ≤ entryKey c b → vKey c a.point ≤ vKey c b.point := by
  intro h
  rw [entryKey_eq c a _ _ ha.1 ha.2, entryKey_eq c b _ _ hb.1 hb.2,
    Prod.Lex.le_iff] at h
  rw [vKey, vKey, Prod.Lex.le_iff]
  simp only at h ⊢
  rcases h with h | ⟨heq, h2⟩
  · exact Or.inl h
  · refine Or.inr ⟨heq, ?_⟩
    rw [Prod.Lex.le_iff] at h2
    simp only at h2
    rcases h2 with h2 | ⟨h2eq, _⟩
    · exact le_of_lt h2
    · exact le_of_eq h2eq

theorem vKey_inj (c : ℚ × ℚ) (p q : BlurPoint)
    (hp : isFiniteNumericPt p = true) (hq : isFiniteNumericPt q = true) :
    vKey c p = vKey c q → p = q := by
  intro h
  obtain ⟨hpx, hpy⟩ := isFiniteNumericPt_spec p hp
  obtain ⟨hqx, hqy⟩ := isFiniteNumericPt_spec q hq
  have h' := toLex.injective h
  have harg := congrArg Prod.fst h'
  have hdist := congrArg Prod.snd h'
  simp only at harg hdist
  set z : ℂ := ⟨((pvRat p.x - c.1 : ℚ) : ℝ), ((pvRat p.y - c.2 : ℚ) : ℝ)⟩
  set w : ℂ := ⟨((pvRat q.x - c.1 : ℚ) : ℝ), ((pvRat q.y - c.2 : ℚ) : ℝ)⟩
  have hnormSq : Complex.normSq z = Complex.normSq w := by
    have hz : Complex.normSq z =
        (((pvRat p.x - c.1) * (pvRat p.x - c.1) +
          (pvRat p.y - c.2) * (pvRat p.y - c.2) : ℚ) : ℝ) := by
      rw [Complex.normSq_mk]
      push_cast
      ring
    have hw : Complex.normSq w =
        (((pvRat q.x - c.1) * (pvRat q.x - c.1) +
          (pvRat q.y - c.2) * (pvRat q.y - c.2) : ℚ) : ℝ) := by
      rw [Complex.normSq_mk]
      push_cast
      ring
    rw [hz, hw]
    exact_mod_cast congrArg Rat.cast hdist
  have habs : Complex.abs z = Complex.abs w := by
    rw [Complex.abs_apply, Complex.abs_apply, hnormSq]
  have hzw : z = w := Complex.ext_abs_arg habs harg
  have hre : ((pvRat p.x - c.1 : ℚ) : ℝ) = ((pvRat q.x - c.1 : ℚ) : ℝ) :=
    congrArg Complex.re hzw
  have him : ((pvRat p.y - c.2 : ℚ) : ℝ) = ((pvRat q.y - c.2 : ℚ) : ℝ) :=
    congrArg Complex.im hzw
  have hx : pvRat p.x = pvRat q.x := by
    have := Rat.cast_injective (α := ℝ) hre
    linarith [sub_left_injective.eq_iff.mp this]
  have hy : pvRat p.y = pvRat q.y := by
    have := Rat.cast_injective (α := ℝ) him
    linarith [sub_left_injective.eq_iff.mp this]
  rcases p with ⟨px, py⟩
  rcases q with ⟨qx, qy⟩
  simp only at hpx hpy hqx hqy hx hy
  rw [BlurPoint.mk.injEq]
  constructor
  · rw [hpx, hqx, hx]
  · rw [hpy, hqy, hy]

end AssetIO

namespace AssetIO

/-! ### The rotation-start scan depends only on the entry coordinates -/

/-- The coordinate pair of an entry. -/
def entryCoords (e : SortableBlurPoint) : JsNum × JsNum := (e.x, e.y)

theorem isYXLess_congr (a a' b b' : SortableBlurPoint)
    (ha : entryCoords a = entryCoords a') (hb : entryCoords b = entryCoords b') :
    isYXLess a b = isYXLess a' b' := by
  simp only [entryCoords, Prod.mk.injEq] at ha hb
  simp [isYXLess, ha.1, ha.2, hb.1, hb.2]

theorem minYXIndexLoop_congr :
    ∀ (l1 l2 : List SortableBlurPoint) (i best : ℕ)
      (b1 b2 : SortableBlurPoint),
      l1.map entryCoords = l2.map entryCoords →
      entryCoords b1 = entryCoords b2 →
      minYXIndexLoop l1 i best b1 = minYXIndexLoop l2 i best b2 := by
  intro l1
  induction l1 with
  | nil =>
      intro l2 i best b1 b2 hmap _
      have : l2 = [] := by
        have := congrArg List.length hmap
        simp at this
        exact List.eq_nil_of_length_eq_zero this.symm
      subst this
      rfl
  | cons p t ih =>
      intro l2 i best b1 b2 hmap hb
      cases l2 with
      | nil => simp at hmap
      | cons p2 t2 =>
          simp only [List.map_cons, List.cons.injEq] at hmap
          obtain ⟨hp, ht⟩ := hmap
          simp only [minYXIndexLoop]
          by_cases h : isYXLess p2 b2
          · rw [if_pos (by rw [isYXLess_congr p p2 b1 b2 hp hb]; exact h),
              if_pos h]
            exact ih t2 (i + 1) i p p2 ht hp
          · rw [if_neg (by rw [isYXLess_congr p p2 b1 b2 hp hb]; exact h),
              if_neg h]
            exact ih t2 (i + 1) best b1 b2 ht hb

theorem minYXIndex_congr (l1 l2 : List SortableBlurPoint)
    (h : l1.map entryCoords = l2.map entryCoords) :
    minYXIndex l1 = minYXIndex l2 := by
  cases l1 with
  | nil =>
      cases l2 with
      | nil => rfl
      | cons q s => simp at h
  | cons p t =>
      cases l2 with
      | nil => simp at h
      | cons q s =>
          simp only [List.map_cons, List.cons.injEq] at h
          exact minYXIndexLoop_congr t s 1 0 p q h.2 h.1

/-! ### Numeric point lists never have mixed units -/

theorem dedup_length_le_one_of_const {l : List String} {c : String}
    (h : ∀ x ∈ l, x = c) : l.dedup.length ≤ 1 := by
  induction l with
  | nil => simp
  | cons a t ih =>
      have ha : a = c := h a (List.mem_cons_self a t)
      by_cases hmem : a ∈ t
      · rw [List.dedup_cons_of_mem hmem]
        exact ih (fun x hx => h x (List.mem_cons_of_mem a hx))
      · rw [List.dedup_cons_of_not_mem hmem]
        have ht : t = [] := by
          cases t with
          | nil => rfl
          | cons b s =>
              have hb : b = c := h b (List.mem_cons_of_mem a
                (List.mem_cons_self b s))
              exact absurd (by rw [ha, ← hb]; exact List.mem_cons_self b s :
                a ∈ b :: s) hmem
        subst ht
        simp

theorem hasMixedBlurPointUnits_false_of_numeric (ps : List BlurPoint)
    (hfin : ∀ p ∈ ps, isFiniteNumericPt p = true) :
    hasMixedBlurPointUnits ps = false := by
  have hx : ∀ s ∈ ps.map (fun p => typeofPV p.x), s = "number" := by
    intro s hs
    obtain ⟨p, hp, rfl⟩ := List.mem_map.mp hs
    obtain ⟨hpx, _⟩ := isFiniteNumericPt_spec p (hfin p hp)
    rw [hpx]
    rfl
  have hy : ∀ s ∈ ps.map (fun p => typeofPV p.y), s = "number" := by
    intro s hs
    obtain ⟨p, hp, rfl⟩ := List.mem_map.mp hs
    obtain ⟨_, hpy⟩ := isFiniteNumericPt_spec p (hfin p hp)
    rw [hpy]
    rfl
  have h1 := not_lt.mpr (dedup_length_le_one_of_const hx)
  have h2 := not_lt.mpr (dedup_length_le_one_of_const hy)
  simp [hasMixedBlurPointUnits, h1, h2]

end AssetIO

namespace AssetIO

theorem blurCentroid_eq (l : List BlurPoint)
    (hfin : ∀ p ∈ l, isFiniteNumericPt p = true) (hn0 : l.length ≠ 0) :
    blurCentroid (toSortablePoints l) =
      (.fin ((l.map (fun p => pvRat p.x)).sum / l.length),
       .fin ((l.map (fun p => pvRat p.y)).sum / l.length)) := by
  have hex : ∀ e ∈ toSortablePoints l, ∃ q, e.x = JsNum.fin q :=
    fun e he => ⟨_, (toSortablePoints_invariant l hfin e he).2.1⟩
  have hey : ∀ e ∈ toSortablePoints l, ∃ q, e.y = JsNum.fin q :=
    fun e he => ⟨_, (toSortablePoints_invariant l hfin e he).2.2⟩
  have hcast : ((l.length : ℚ)) ≠ 0 := Nat.cast_ne_zero.mpr hn0
  unfold blurCentroid
  rw [jsSumX_fin _ hex, jsSumY_fin _ hey, toSortablePoints_map_xRat,
    toSortablePoints_map_yRat, toSortablePoints_length]
  simp [JsNum.div, hcast]

/-- C4 (amended): for lists of at least three contour points whose
coordinates are all plain finite numbers, the recorded point ordering is a
pure function of the input multiset — any permutation of the same points
yields the same ordered polygon.  (The counterexample shows this fails for
mixed-unit point lists, which skip the reordering.) -/
theorem toOrderedBlurPoints_perm_invariant (ps qs : List BlurPoint)
    (hperm : ps.Perm qs) (hlen : 3 ≤ ps.length)
    (hfin : ∀ p ∈ ps, isFiniteNumericPt p = true) :
    toOrderedBlurPoints ps = toOrderedBlurPoints qs := by
  have hfinq : ∀ p ∈ qs, isFiniteNumericPt p = true :=
    fun p hp => hfin p (hperm.symm.subset hp)
  have hlen_eq : ps.length = qs.length := hperm.length_eq
  have hn0 : ps.length ≠ 0 := by omega
  have hnq0 : qs.length ≠ 0 := by omega
  have hcond_p : ¬(ps.length < 3 ∨ hasMixedBlurPointUnits ps = true) := by
    rintro (h | h)
    · omega
    · rw [hasMixedBlurPointUnits_false_of_numeric ps hfin] at h
      exact Bool.false_ne_true h
  have hcond_q : ¬(qs.length < 3 ∨ hasMixedBlurPointUnits qs = true) := by
    rintro (h | h)
    · omega
    · rw [hasMixedBlurPointUnits_false_of_numeric qs hfinq] at h
      exact Bool.false_ne_true h
  -- the two centroids coincide
  have hsumX : (qs.map (fun p => pvRat p.x)).sum =
      (ps.map (fun p => pvRat p.x)).sum := ((hperm.map _).sum_eq).symm
  have hsumY : (qs.map (fun p => pvRat p.y)).sum =
      (ps.map (fun p => pvRat p.y)).sum := ((hperm.map _).sum_eq).symm
  set c : ℚ × ℚ := ((ps.map (fun p => pvRat p.x)).sum / ps.length,
    (ps.map (fun p => pvRat p.y)).sum / ps.length) with hc
  have hcent_p : blurCentroid (toSortablePoints ps) = (.fin c.1, .fin c.2) :=
    blurCentroid_eq ps hfin hn0
  have hcent_q : blurCentroid (toSortablePoints qs) = (.fin c.1, .fin c.2) := by
    rw [blurCentroid_eq qs hfinq hnq0, hsumX, hsumY, ← hlen_eq]
  -- the two sorted entry lists carry the same value sequence
  have hgt : ∀ a b, entryFin a → entryFin b →
      (compareSortable (.fin c.1, .fin c.2) a b = .gt ↔
        entryKey c b < entryKey c a) :=
    fun a b ha hb => compareSortable_gt_iff c a b ha hb
  have hEs : blurOrdered (toSortablePoints ps) =
      sortByCmp (compareSortable (.fin c.1, .fin c.2)) (toSortablePoints ps) := by
    rw [blurOrdered, hcent_p]
  have hFs : blurOrdered (toSortablePoints qs) =
      sortByCmp (compareSortable (.fin c.1, .fin c.2)) (toSortablePoints qs) := by
    rw [blurOrdered, hcent_q]
  set Es := sortByCmp (compareSortable (.fin c.1, .fin c.2))
    (toSortablePoints ps) with hEsDef
  set Fs := sortByCmp (compareSortable (.fin c.1, .fin c.2))
    (toSortablePoints qs) with hFsDef
  have hInvP : ∀ e ∈ Es, entryOfNumeric ps e :=
    fun e he => toSortablePoints_invariant ps hfin e
      ((sortByCmp_perm _ _).subset he)
  have hInvQ : ∀ e ∈ Fs, entryOfNumeric qs e :=
    fun e he => toSortablePoints_invariant qs hfinq e
      ((sortByCmp_perm _ _).subset he)
  have hpairE : Es.Pairwise (fun u v => entryKey c u ≤ entryKey c v) :=
    pairwise_le_sortByCmp _ (entryKey c) entryFin hgt (toSortablePoints ps)
      (fun e he => entryOfNumeric_entryFin
        (toSortablePoints_invariant ps hfin e he))
  have hpairF : Fs.Pairwise (fun u v => entryKey c u ≤ entryKey c v) :=
    pairwise_le_sortByCmp _ (entryKey c) entryFin hgt (toSortablePoints qs)
      (fun e he => entryOfNumeric_entryFin
        (toSortablePoints_invariant qs hfinq e he))
  have hpairVE : (Es.map (fun e => e.point)).Pairwise
      (fun u v => vKey c u ≤ vKey c v) := by
    rw [List.pairwise_map]
    exact List.Pairwise.imp_of_mem
      (fun {a b} ha hb hR => entryKey_le_imp_vKey_le c a b
        ⟨(hInvP a ha).2.1, (hInvP a ha).2.2⟩
        ⟨(hInvP b hb).2.1, (hInvP b hb).2.2⟩ hR) hpairE
  have hpairVF : (Fs.map (fun e => e.point)).Pairwise
      (fun u v => vKey c u ≤ vKey c v) := by
    rw [List.pairwise_map]
    exact List.Pairwise.imp_of_mem
      (fun {a b} ha hb hR => entryKey_le_imp_vKey_le c a b
        ⟨(hInvQ a ha).2.1, (hInvQ a ha).2.2⟩
        ⟨(hInvQ b hb).2.1, (hInvQ b hb).2.2⟩ hR) hpairF
  have hpermE : (Es.map (fun e => e.point)).Perm ps := by
    have h1 := (sortByCmp_perm (compareSortable (.fin c.1, .fin c.2))
      (toSortablePoints ps)).map (fun e => e.point)
    rw [toSortablePoints_map_point] at h1
    exact h1
  have hpermF : (Fs.map (fun e => e.point)).Perm qs := by
    have h1 := (sortByCmp_perm (compareSortable (.fin c.1, .fin c.2))
      (toSortablePoints qs)).map (fun e => e.point)
    rw [toSortablePoints_map_point] at h1
    exact h1
  have hmapEq : Es.map (fun e => e.point) = Fs.map (fun e => e.point) :=
    eq_of_perm_of_pairwise_key_le (vKey c) _ _
      (hpermE.trans (hperm.trans hpermF.symm)) hpairVE hpairVF
      (fun a ha b hb hk => vKey_inj c a b (hfin a (hpermE.subset ha))
        (hfinq b (hpermF.subset hb)) hk)
  have hcoords : Es.map entryCoords = Fs.map entryCoords := by
    have hE : Es.map entryCoords = (Es.map (fun e => e.point)).map
        (fun p => (JsNum.fin (pvRat p.x), JsNum.fin (pvRat p.y))) := by
      rw [List.map_map]
      refine List.map_congr_left ?_
      intro e he
      obtain ⟨_, hx, hy⟩ := hInvP e he
      simp [entryCoords, hx, hy, Function.comp]
    have hF : Fs.map entryCoords = (Fs.map (fun e => e.point)).map
        (fun p => (JsNum.fin (pvRat p.x), JsNum.fin (pvRat p.y))) := by
      rw [List.map_map]
      refine List.map_congr_left ?_
      intro e he
      obtain ⟨_, hx, hy⟩ := hInvQ e he
      simp [entryCoords, hx, hy, Function.comp]
    rw [hE, hF, hmapEq]
  have hmin : minYXIndex Es = minYXIndex Fs := minYXIndex_congr _ _ hcoords
  rw [toOrderedBlurPoints, if_neg hcond_p, toOrderedBlurPoints,
    if_neg hcond_q, hEs, hFs, List.map_append, List.map_append,
    List.map_drop, List.map_drop, List.map_take, List.map_take, hmin, hmapEq]

end AssetIO

namespace AssetIO

theorem toOrderedBlurPoints_perm_invariant_witness :
    toOrderedBlurPoints
        [⟨.num (.fin 0), .num (.fin 0)⟩, ⟨.num (.fin 10), .num (.fin 0)⟩,
          ⟨.num (.fin 5), .num (.fin 8)⟩] =
      toOrderedBlurPoints
        [⟨.num (.fin 10), .num (.fin 0)⟩, ⟨.num (.fin 0), .num (.fin 0)⟩,
          ⟨.num (.fin 5), .num (.fin 8)⟩] :=
  toOrderedBlurPoints_perm_invariant _ _
    (List.Perm.swap (⟨.num (.fin 10), .num (.fin 0)⟩ : BlurPoint)
      (⟨.num (.fin 0), .num (.fin 0)⟩ : BlurPoint)
      [(⟨.num (.fin 5), .num (.fin 8)⟩ : BlurPoint)])
    (by decide) (by decide)

end AssetIO
